import Mathlib

/-
Verification of the SmartCache implementation
(src/implementations/1_claude_python/smart_cache.py).

The cache state is embedded shallowly:
* Python's `OrderedDict` `self._cache` becomes an association list
  `List (String × α)` whose order is the recency order (front = least
  recently used, back = most recently used; `move_to_end` moves a key to
  the back).
* The plain dict `self._metadata` becomes an association list
  `List (String × CacheEntry α)` in insertion order (updating an existing
  key keeps its position, inserting a fresh key appends at the end),
  matching CPython dict semantics.
* `time.time()` is replaced by an explicit `now : Nat` argument on every
  operation that reads the clock.
* Python dicts can never hold a duplicate key, so `dictDel` below removes
  every binding of the key; on the duplicate-free states that correspond
  to Python dicts this agrees with `del d[key]`.  `del` on an absent key
  would raise `KeyError`; the only such call sites
  (`_remove_entry`'s metadata delete, `move_to_end`, `self._metadata[key]`
  in `get`) are guarded by the cache/metadata key-set invariant proved
  below, and the embedding makes them total in those dead branches
  (`get` returns `none` at top level to mark the would-be `KeyError`).
* Event listener callbacks are values of type `Listener α`; a raising
  callback is one returning `Except.error`.  The `try/except` of
  `_notify_listeners` is the `runListener` match, which converts the
  error into a log line instead of propagating it.
-/

set_option autoImplicit false

variable {α : Type}

/-- Per-key metadata, mirroring the `CacheEntry` dataclass.  The `ttl`
field stores the absolute expiry timestamp (`current_time + ttl`), exactly
as `smart_cache.py` stores it in the field of the same name. -/
structure CacheEntry (α : Type) where
  value : α
  ttl : Nat
  priority : Nat
  created_at : Nat
  last_accessed : Nat
  access_count : Nat
deriving Repr, DecidableEq

/-- The four running counters of the `CacheStats` dataclass. -/
structure CacheStats where
  hits : Nat
  misses : Nat
  evictions : Nat
  insertions : Nat
deriving Repr, DecidableEq

/-- The mutable state of one `SmartCache` object: the recency-ordered
store (`self._cache`), the metadata dict (`self._metadata`), the fixed
capacity and default TTL, the stats counters, and the chronological log of
events handed to `_notify_listeners` (event type, key, optional value). -/
structure SmartCache (α : Type) where
  cache : List (String × α)
  metadata : List (String × CacheEntry α)
  max_size : Nat
  default_ttl : Nat
  stats : CacheStats
  events : List (String × String × Option α)
deriving Repr, DecidableEq

/-- Lookup in an association list (first binding wins, as in a dict). -/
def dictGet {β : Type} (k : String) : List (String × β) → Option β
  | [] => none
  | p :: rest => if p.1 = k then some p.2 else dictGet k rest

/-- Python's `key in d`. -/
def dictMem {β : Type} (k : String) (d : List (String × β)) : Bool :=
  (dictGet k d).isSome

/-- Python's `d[key] = v`: update the existing binding in place (keeping
its position) or append a fresh binding at the end. -/
def dictSet {β : Type} (k : String) (v : β) : List (String × β) → List (String × β)
  | [] => [(k, v)]
  | p :: rest => if p.1 = k then (k, v) :: rest else p :: dictSet k v rest

/-- Python's `del d[key]` on the duplicate-free lists that model dicts. -/
def dictDel {β : Type} (k : String) : List (String × β) → List (String × β)
  | [] => []
  | p :: rest => if p.1 = k then dictDel k rest else p :: dictDel k rest

/-- The key sequence of an association list (`list(d.keys())`). -/
def keysOf {β : Type} (d : List (String × β)) : List String :=
  d.map Prod.fst

/-- `OrderedDict.move_to_end`: reposition the binding of `k` at the back.
Python raises `KeyError` when `k` is absent; both call sites in the source
only run with `k` present, so the absent case is modelled as the identity. -/
def moveToEnd {β : Type} (k : String) (d : List (String × β)) : List (String × β) :=
  match dictGet k d with
  | some v => dictDel k d ++ [(k, v)]
  | none => d

/-- `list(self._cache.keys()).index(key)`: position of the first occurrence
(`.index` raises on an absent key; the eviction scan only queries keys of
the metadata dict, equal to the cache key set by the proved invariant, so
the out-of-range fallback value `l.length` is never reached). -/
def listIndex (k : String) : List String → Nat
  | [] => 0
  | x :: rest => if x = k then 0 else listIndex k rest + 1

/-- `max(1, min(10, priority))` from `put`. -/
def clampPriority (p : Int) : Nat :=
  (max 1 (min 10 p)).toNat

/-- `ttl = ttl or self._default_ttl`: `None` and `0` are both falsy. -/
def resolveTtl (c : SmartCache α) (ttl : Option Nat) : Nat :=
  match ttl with
  | none => c.default_ttl
  | some t => if t = 0 then c.default_ttl else t

/-- One iteration of the `for key, entry in self._metadata.items()` loop of
`_evict_lowest_priority`, threading the `(min_priority, evict_key)` pair.
Note the faithful `and evict_key` truthiness test: the tie-break is skipped
whenever the current candidate is `None` or the empty string. -/
def scanStep (ck : List String) (acc : Nat × Option String)
    (p : String × CacheEntry α) : Nat × Option String :=
  if p.2.priority < acc.1 then
    (p.2.priority, some p.1)
  else
    match acc.2 with
    | some ek =>
      if p.2.priority = acc.1 ∧ ek ≠ "" then
        if listIndex p.1 ck < listIndex ek ck then (acc.1, some p.1) else acc
      else acc
    | none => acc

/-- The victim-selection loop of `_evict_lowest_priority`, started from
`min_priority = 11`, `evict_key = None`. -/
def evictScan (ck : List String) (md : List (String × CacheEntry α)) :
    Nat × Option String :=
  md.foldl (scanStep ck) (11, none)

/-- `_remove_entry`: delete the key from both structures when present. -/
def SmartCache.removeEntry (c : SmartCache α) (k : String) : SmartCache α :=
  if dictMem k c.cache then
    { c with cache := dictDel k c.cache, metadata := dictDel k c.metadata }
  else c

/-- `_evict_lowest_priority`: pick a victim by the scan above, and — only
when the chosen key is truthy (`if evict_key:`) — remove it, bump the
`evictions` counter and fire an `"eviction"` event. -/
def SmartCache.evictLowestPriority (c : SmartCache α) : SmartCache α :=
  if c.cache.isEmpty then c
  else
    match (evictScan (keysOf c.cache) c.metadata).2 with
    | some ek =>
      if ek ≠ "" then
        let c' := c.removeEntry ek
        { c' with
          stats := { c'.stats with evictions := c'.stats.evictions + 1 },
          events := c'.events ++ [("eviction", ek, none)] }
      else c
    | none => c

/-- Lines 59–74 of `put`: store the value, store the fresh metadata entry
(`access_count = 0`), move the key to the most-recently-used end, bump
`insertions` and fire the `"insert"` event. -/
def SmartCache.storeEntry (c : SmartCache α) (now : Nat) (key : String)
    (value : α) (ttlv : Nat) (priority : Int) : SmartCache α :=
  { c with
    cache := moveToEnd key (dictSet key value c.cache),
    metadata := dictSet key
      ⟨value, now + ttlv, clampPriority priority, now, now, 0⟩ c.metadata,
    stats := { c.stats with insertions := c.stats.insertions + 1 },
    events := c.events ++ [("insert", key, some value)] }

/-- `put`: evict once when the key is fresh and the cache is at or above
capacity, then store.  Always returns `true`. -/
def SmartCache.put (c : SmartCache α) (now : Nat) (key : String) (value : α)
    (ttl : Option Nat) (priority : Int) : SmartCache α × Bool :=
  let ttlv := resolveTtl c ttl
  let c1 :=
    if ¬ dictMem key c.cache ∧ c.cache.length ≥ c.max_size then
      c.evictLowestPriority
    else c
  (c1.storeEntry now key value ttlv priority, true)

/-- `get`: miss on an absent key; lazy-expire (`now > entry.ttl`) into a
miss; otherwise update the entry, move to most-recently-used, count a hit
and return the value.  The top-level `none` marks the `KeyError` that
Python's `self._metadata[key]` would raise if a cached key had no
metadata — impossible in reachable states (key-set invariant). -/
def SmartCache.get (c : SmartCache α) (now : Nat) (key : String) :
    Option (SmartCache α × Option α) :=
  if ¬ dictMem key c.cache then
    some ({ c with
            stats := { c.stats with misses := c.stats.misses + 1 },
            events := c.events ++ [("miss", key, none)] }, none)
  else
    match dictGet key c.metadata with
    | none => none
    | some entry =>
      if now > entry.ttl then
        let c' := c.removeEntry key
        some ({ c' with
                stats := { c'.stats with misses := c'.stats.misses + 1 },
                events := c'.events ++ [("miss", key, none)] }, none)
      else
        some ({ c with
                metadata := dictSet key
                  { entry with last_accessed := now,
                               access_count := entry.access_count + 1 }
                  c.metadata,
                cache := moveToEnd key c.cache,
                stats := { c.stats with hits := c.stats.hits + 1 },
                events := c.events ++ [("hit", key, some entry.value)] },
              some entry.value)

/-- `delete`: remove the entry when present, report presence, touch
neither the stats nor the event log. -/
def SmartCache.delete (c : SmartCache α) (key : String) : SmartCache α × Bool :=
  if dictMem key c.cache then (c.removeEntry key, true) else (c, false)

/-- `clear`: drop all entries and metadata, keep stats. -/
def SmartCache.clear (c : SmartCache α) : SmartCache α :=
  { c with cache := [], metadata := [] }

/-- `_cleanup_expired`: collect the expired keys first, then remove each. -/
def SmartCache.cleanupExpired (c : SmartCache α) (now : Nat) : SmartCache α :=
  let expired := keysOf (c.metadata.filter (fun p => now > p.2.ttl))
  expired.foldl (fun acc k => acc.removeEntry k) c

/-- `__contains__`: `self.get(key) is not None`, side effects included. -/
def SmartCache.containsKey (c : SmartCache α) (now : Nat) (key : String) :
    Option (SmartCache α × Bool) :=
  (c.get now key).map (fun r => (r.1, r.2.isSome))

/-- A registered event listener: called with (event_type, key, value) and
either returns normally or raises (modelled by `Except.error`). -/
def Listener (α : Type) : Type :=
  String → String → Option α → Except String Unit

/-- One callback invocation inside the `try/except` of
`_notify_listeners`: a raising listener's exception is caught and turned
into the logged line `"Event listener error: ..."` instead of
propagating. -/
def runListener (l : Listener α) (et k : String) (v : Option α) :
    Option String :=
  match l et k v with
  | Except.ok _ => none
  | Except.error e => some ("Event listener error: " ++ e)

/-- The `for listener in self._event_listeners` loop of
`_notify_listeners`: every listener is invoked in order, each failure is
logged per listener (a `some` entry) and swallowed. -/
def notifyListeners (ls : List (Listener α)) (et k : String)
    (v : Option α) : List (Option String) :=
  ls.foldl (fun log l => log ++ [runListener l et k v]) []

/-- `put` together with its listener dispatch: after the mutation has been
applied, the `"insert"` event is handed to every registered listener. -/
def putWithListeners (ls : List (Listener α)) (c : SmartCache α)
    (now : Nat) (key : String) (value : α) (ttl : Option Nat)
    (priority : Int) : SmartCache α × Bool × List (Option String) :=
  ((c.put now key value ttl priority).1,
   (c.put now key value ttl priority).2,
   notifyListeners ls "insert" key (some value))

/-- `get` together with its listener dispatch: the events this call fires
(the suffix it appends to the event log) are each handed to every
registered listener after the mutation. -/
def getWithListeners (ls : List (Listener α)) (c : SmartCache α)
    (now : Nat) (key : String) :
    Option (SmartCache α × Option α × List (Option String)) :=
  (c.get now key).map (fun r =>
    (r.1, r.2,
      (r.1.events.drop c.events.length).foldl
        (fun log ev => log ++ notifyListeners ls ev.1 ev.2.1 ev.2.2) []))

/-- A fresh cache (`__init__`): empty structures, zeroed stats. -/
def SmartCache.init (α : Type) (max_size : Nat) (default_ttl : Nat) :
    SmartCache α :=
  ⟨[], [], max_size, default_ttl, ⟨0, 0, 0, 0⟩, []⟩

/-- One public operation of the cache (the sweep is the background
`_cleanup_expired` tick, which mutates the same state under the same
lock). -/
inductive Op (α : Type) where
  | put (now : Nat) (key : String) (value : α) (ttl : Option Nat) (priority : Int)
  | get (now : Nat) (key : String)
  | del (key : String)
  | clear
  | sweep (now : Nat)
  | containsKey (now : Nat) (key : String)
deriving Repr, DecidableEq

/-- State transition of one operation (outputs discarded; the `none`
result of `get`, the modelled `KeyError`, leaves the state unchanged and
is unreachable from well-formed states). -/
def step (c : SmartCache α) : Op α → SmartCache α
  | .put now k v ttl p => (c.put now k v ttl p).1
  | .get now k =>
    match c.get now k with
    | some r => r.1
    | none => c
  | .del k => (c.delete k).1
  | .clear => c.clear
  | .sweep now => c.cleanupExpired now
  | .containsKey now k =>
    match c.containsKey now k with
    | some r => r.1
    | none => c

/-- Run a trace of operations. -/
def run (c : SmartCache α) (ops : List (Op α)) : SmartCache α :=
  ops.foldl step c

/-- Only `put` introduces keys; a trace is empty-key-free when every put
uses a non-empty key. -/
def opKeyOk {α : Type} : Op α → Bool
  | .put _ k _ _ _ => k ≠ ""
  | _ => true

/-- Well-formedness of a cache state: duplicate-free key rows, equal key
sets in the store and the metadata dict, and clamped priorities.  Every
clause is a list-bounded (hence decidable) statement. -/
def WF (c : SmartCache α) : Prop :=
  (keysOf c.cache).Nodup ∧
  (keysOf c.metadata).Nodup ∧
  (∀ k ∈ keysOf c.cache, dictMem k c.metadata = true) ∧
  (∀ k ∈ keysOf c.metadata, dictMem k c.cache = true) ∧
  (∀ p ∈ c.metadata, 1 ≤ p.2.priority ∧ p.2.priority ≤ 10)

/-- All keys held in the store are non-empty strings. -/
def KeysNE (c : SmartCache α) : Prop :=
  ∀ p ∈ c.cache, p.1 ≠ ""

instance (c : SmartCache α) : Decidable (WF c) := by
  unfold WF; infer_instance

instance (c : SmartCache α) : Decidable (KeysNE c) := by
  unfold KeysNE; infer_instance

/-! ### Association-list lemmas -/

theorem dictGet_set_self {β : Type} (k : String) (v : β) (d : List (String × β)) :
    dictGet k (dictSet k v d) = some v := by
  induction d with
  | nil => simp [dictGet, dictSet]
  | cons p rest ih =>
    by_cases h : p.1 = k
    · simp [dictSet, dictGet, h]
    · simp [dictSet, dictGet, h, ih]

theorem dictGet_set_ne {β : Type} {k k' : String} (v : β) (d : List (String × β))
    (h : k' ≠ k) : dictGet k' (dictSet k v d) = dictGet k' d := by
  have h' : ¬ k = k' := fun hh => h hh.symm
  induction d with
  | nil => simp [dictGet, dictSet, h']
  | cons p rest ih =>
    by_cases hp : p.1 = k
    · subst hp
      simp [dictSet, dictGet, h']
    · simp [dictSet, dictGet, hp, ih]

theorem dictGet_del_self {β : Type} (k : String) (d : List (String × β)) :
    dictGet k (dictDel k d) = none := by
  induction d with
  | nil => simp [dictGet, dictDel]
  | cons p rest ih =>
    by_cases h : p.1 = k
    · simp [dictDel, h, ih]
    · simp [dictDel, dictGet, h, ih]

theorem dictGet_del_ne {β : Type} {k k' : String} (d : List (String × β))
    (h : k' ≠ k) : dictGet k' (dictDel k d) = dictGet k' d := by
  have h' : ¬ k = k' := fun hh => h hh.symm
  induction d with
  | nil => simp [dictDel]
  | cons p rest ih =>
    by_cases hp : p.1 = k
    · subst hp
      simp [dictDel, dictGet, h', ih]
    · simp [dictDel, dictGet, hp, ih]

theorem dictMem_set_self {β : Type} (k : String) (v : β) (d : List (String × β)) :
    dictMem k (dictSet k v d) = true := by
  simp [dictMem, dictGet_set_self]

theorem dictMem_set_ne {β : Type} {k k' : String} (v : β) (d : List (String × β))
    (h : k' ≠ k) : dictMem k' (dictSet k v d) = dictMem k' d := by
  simp [dictMem, dictGet_set_ne v d h]

theorem dictMem_del_self {β : Type} (k : String) (d : List (String × β)) :
    dictMem k (dictDel k d) = false := by
  simp [dictMem, dictGet_del_self]

theorem dictMem_del_ne {β : Type} {k k' : String} (d : List (String × β))
    (h : k' ≠ k) : dictMem k' (dictDel k d) = dictMem k' d := by
  simp [dictMem, dictGet_del_ne d h]

theorem mem_keysOf_iff {β : Type} {k : String} {d : List (String × β)} :
    k ∈ keysOf d ↔ dictMem k d = true := by
  induction d with
  | nil => simp [keysOf, dictMem, dictGet]
  | cons p rest ih =>
    by_cases h : p.1 = k
    · simp [keysOf, dictMem, dictGet, h]
    · have h' : ¬ k = p.1 := fun hh => h hh.symm
      simp [keysOf, dictMem, dictGet, h, h'] at ih ⊢
      exact ih

theorem dictGet_mem_pair {β : Type} {k : String} {v : β} {d : List (String × β)}
    (h : dictGet k d = some v) : (k, v) ∈ d := by
  induction d with
  | nil => simp [dictGet] at h
  | cons p rest ih =>
    by_cases hp : p.1 = k
    · simp only [dictGet, hp, if_pos] at h
      injection h with h2
      have hp2 : p = (k, v) := Prod.ext hp h2
      rw [hp2] at *
      exact List.mem_cons_self _ _
    · simp only [dictGet, hp, if_neg, not_false_iff] at h
      exact List.mem_cons_of_mem _ (ih h)

theorem mem_dictSet_elem {β : Type} {k : String} {v : β} {p : String × β} :
    ∀ {d : List (String × β)}, p ∈ dictSet k v d → p = (k, v) ∨ p ∈ d := by
  intro d
  induction d with
  | nil =>
    intro h
    simpa [dictSet] using h
  | cons q rest ih =>
    intro h
    by_cases hq : q.1 = k
    · rw [dictSet, if_pos hq, List.mem_cons] at h
      rcases h with h | h
      · exact Or.inl h
      · exact Or.inr (List.mem_cons_of_mem _ h)
    · rw [dictSet, if_neg hq, List.mem_cons] at h
      rcases h with h | h
      · exact Or.inr (by simp [h])
      · rcases ih h with h' | h'
        · exact Or.inl h'
        · exact Or.inr (List.mem_cons_of_mem _ h')

theorem mem_dictDel_sub {β : Type} {k : String} {p : String × β} :
    ∀ {d : List (String × β)}, p ∈ dictDel k d → p ∈ d := by
  intro d
  induction d with
  | nil =>
    intro h
    rw [dictDel] at h
    cases h
  | cons q rest ih =>
    intro hmm
    by_cases hq : q.1 = k
    · rw [dictDel, if_pos hq] at hmm
      exact List.mem_cons_of_mem _ (ih hmm)
    · rw [dictDel, if_neg hq, List.mem_cons] at hmm
      rcases hmm with hmm | hmm
      · simp [hmm]
      · exact List.mem_cons_of_mem _ (ih hmm)

theorem dictDel_sublist {β : Type} (k : String) (d : List (String × β)) :
    List.Sublist (dictDel k d) d := by
  induction d with
  | nil => exact List.Sublist.refl []
  | cons p rest ih =>
    by_cases h : p.1 = k
    · rw [dictDel, if_pos h]
      exact ih.cons p
    · rw [dictDel, if_neg h]
      exact ih.cons₂ p

theorem dictDel_of_not_mem {β : Type} {k : String} {d : List (String × β)}
    (h : dictMem k d = false) : dictDel k d = d := by
  induction d with
  | nil => simp [dictDel]
  | cons p rest ih =>
    by_cases hp : p.1 = k
    · simp [dictMem, dictGet, hp] at h
    · simp only [dictMem, dictGet, hp, if_neg, not_false_iff] at h
      simp [dictDel, hp, ih h]

theorem length_dictDel_of_mem {β : Type} {k : String} {d : List (String × β)}
    (hnodup : (keysOf d).Nodup) (h : dictMem k d = true) :
    (dictDel k d).length + 1 = d.length := by
  induction d with
  | nil => simp [dictMem, dictGet] at h
  | cons p rest ih =>
    simp only [keysOf, List.map_cons, List.nodup_cons] at hnodup
    by_cases hp : p.1 = k
    · have hrest : dictMem k rest = false := by
        by_contra hc
        have : k ∈ keysOf rest := mem_keysOf_iff.mpr (by
          cases hmem : dictMem k rest
          · exact absurd hmem hc
          · rfl)
        exact hnodup.1 (hp ▸ this)
      simp [dictDel, hp, dictDel_of_not_mem hrest]
    · simp only [dictMem, dictGet, hp, if_neg, not_false_iff] at h
      simp only [dictDel, hp, if_neg, not_false_iff, List.length_cons]
      rw [ih hnodup.2 h]

theorem keysOf_append {β : Type} (a b : List (String × β)) :
    keysOf (a ++ b) = keysOf a ++ keysOf b := by
  simp [keysOf]

theorem keysOf_dictSet_mem {β : Type} {k : String} (v : β)
    {d : List (String × β)} (h : dictMem k d = true) :
    keysOf (dictSet k v d) = keysOf d := by
  induction d with
  | nil => simp [dictMem, dictGet] at h
  | cons p rest ih =>
    by_cases hp : p.1 = k
    · simp [dictSet, hp, keysOf]
    · simp only [dictMem, dictGet, hp, if_neg, not_false_iff] at h
      simp [dictSet, hp, keysOf] at ih ⊢
      exact ih h

theorem keysOf_dictSet_not_mem {β : Type} {k : String} (v : β)
    {d : List (String × β)} (h : dictMem k d = false) :
    keysOf (dictSet k v d) = keysOf d ++ [k] := by
  induction d with
  | nil => simp [dictSet, keysOf]
  | cons p rest ih =>
    by_cases hp : p.1 = k
    · simp [dictMem, dictGet, hp] at h
    · simp only [dictMem, dictGet, hp, if_neg, not_false_iff] at h
      simp [dictSet, hp, keysOf] at ih ⊢
      exact ih h

theorem nodup_keysOf_dictDel {β : Type} (k : String) {d : List (String × β)}
    (h : (keysOf d).Nodup) : (keysOf (dictDel k d)).Nodup :=
  ((dictDel_sublist k d).map Prod.fst).nodup h

theorem nodup_keysOf_dictSet {β : Type} (k : String) (v : β)
    {d : List (String × β)} (h : (keysOf d).Nodup) :
    (keysOf (dictSet k v d)).Nodup := by
  cases hm : dictMem k d
  · rw [keysOf_dictSet_not_mem v hm]
    refine List.Nodup.append h (List.nodup_singleton k) ?_
    intro x hx hx'
    simp only [List.mem_singleton] at hx'
    subst hx'
    rw [mem_keysOf_iff, hm] at hx
    cases hx
  · rw [keysOf_dictSet_mem v hm]; exact h

theorem dictDel_dictSet_self {β : Type} (k : String) (v : β)
    (d : List (String × β)) : dictDel k (dictSet k v d) = dictDel k d := by
  induction d with
  | nil => simp [dictSet, dictDel]
  | cons p rest ih =>
    by_cases hp : p.1 = k
    · simp [dictSet, dictDel, hp]
    · simp [dictSet, dictDel, hp, ih]

theorem dictGet_append {β : Type} (k : String) (a b : List (String × β)) :
    dictGet k (a ++ b) =
      match dictGet k a with
      | some v => some v
      | none => dictGet k b := by
  induction a with
  | nil => simp [dictGet]
  | cons p rest ih =>
    by_cases hp : p.1 = k
    · simp [dictGet, hp]
    · simp [dictGet, hp, ih]

theorem moveToEnd_eq_of_get {β : Type} {k : String} {v : β}
    {d : List (String × β)} (h : dictGet k d = some v) :
    moveToEnd k d = dictDel k d ++ [(k, v)] := by
  simp [moveToEnd, h]

theorem dictMem_moveToEnd {β : Type} (k k' : String) (d : List (String × β)) :
    dictMem k' (moveToEnd k d) = dictMem k' d := by
  cases hg : dictGet k d with
  | none => simp [moveToEnd, hg]
  | some v =>
    rw [moveToEnd_eq_of_get hg]
    by_cases hk : k' = k
    · subst hk
      simp [dictMem, dictGet_append, dictGet_del_self, dictGet, hg]
    · have hk' : ¬ k = k' := fun hh => hk hh.symm
      simp [dictMem, dictGet_append, dictGet_del_ne d hk, dictGet, hk']
      cases dictGet k' d <;> simp

theorem mem_moveToEnd_sub {β : Type} {k : String} {p : String × β}
    {d : List (String × β)} (h : p ∈ moveToEnd k d) : p ∈ d := by
  cases hg : dictGet k d with
  | none => simpa [moveToEnd, hg] using h
  | some v =>
    rw [moveToEnd_eq_of_get hg, List.mem_append] at h
    rcases h with h | h
    · exact mem_dictDel_sub h
    · simp only [List.mem_singleton] at h
      subst h
      exact dictGet_mem_pair hg

theorem length_moveToEnd_of_nodup {β : Type} (k : String)
    {d : List (String × β)} (h : (keysOf d).Nodup) :
    (moveToEnd k d).length = d.length := by
  cases hg : dictGet k d with
  | none => simp [moveToEnd, hg]
  | some v =>
    rw [moveToEnd_eq_of_get hg, List.length_append]
    have hm : dictMem k d = true := by simp [dictMem, hg]
    have := length_dictDel_of_mem h hm
    simpa using this

theorem nodup_keysOf_moveToEnd {β : Type} (k : String)
    {d : List (String × β)} (h : (keysOf d).Nodup) :
    (keysOf (moveToEnd k d)).Nodup := by
  cases hg : dictGet k d with
  | none => simpa [moveToEnd, hg] using h
  | some v =>
    rw [moveToEnd_eq_of_get hg, keysOf_append]
    show (keysOf (dictDel k d) ++ [k]).Nodup
    refine List.Nodup.append (nodup_keysOf_dictDel k h) (List.nodup_singleton k) ?_
    intro x hx hx'
    simp only [List.mem_singleton] at hx'
    subst hx'
    rw [mem_keysOf_iff, dictMem_del_self] at hx
    cases hx

theorem getLast_keysOf_moveToEnd {β : Type} {k : String}
    {d : List (String × β)} (h : dictMem k d = true) :
    (keysOf (moveToEnd k d)).getLast? = some k := by
  rw [dictMem] at h
  cases hg : dictGet k d with
  | none => rw [hg] at h; cases h
  | some v =>
    rw [moveToEnd_eq_of_get hg, keysOf_append]
    show (keysOf (dictDel k d) ++ [k]).getLast? = some k
    exact List.getLast?_concat _

theorem exists_pair_of_mem_keysOf {β : Type} {k : String} {d : List (String × β)}
    (h : k ∈ keysOf d) : ∃ v, (k, v) ∈ d := by
  rw [mem_keysOf_iff] at h
  rw [dictMem] at h
  cases hg : dictGet k d with
  | none => rw [hg] at h; cases h
  | some v => exact ⟨v, dictGet_mem_pair hg⟩

theorem mem_keysOf_of_pair {β : Type} {p : String × β} {d : List (String × β)}
    (h : p ∈ d) : p.1 ∈ keysOf d :=
  List.mem_map_of_mem Prod.fst h

/-! ### Characterisation of the eviction scan

`_evict_lowest_priority` folds `scanStep` over the metadata dict.  The
lemma below tracks an arbitrary current candidate `(m, some k)` whose key
is a non-empty string (so Python's `and evict_key` truthiness test never
skips the tie-break): the fold ends on the lexicographic minimum of
(priority, position in the recency order) over the candidate and all
remaining entries. -/

theorem scanGo_spec (ck : List String) :
    ∀ (md : List (String × CacheEntry α)) (m : Nat) (k : String),
      k ≠ "" → (∀ p ∈ md, p.1 ≠ "") →
      ∃ m' k',
        md.foldl (scanStep ck) (m, some k) = (m', some k') ∧
        ((k' = k ∧ m' = m) ∨ ∃ e, (k', e) ∈ md ∧ e.priority = m') ∧
        m' ≤ m ∧
        (∀ p ∈ md, m' ≤ p.2.priority) ∧
        (m' = m → listIndex k' ck ≤ listIndex k ck) ∧
        (∀ p ∈ md, p.2.priority = m' → listIndex k' ck ≤ listIndex p.1 ck) := by
  intro md
  induction md with
  | nil =>
    intro m k hk _
    exact ⟨m, k, rfl, Or.inl ⟨rfl, rfl⟩, le_refl m, by simp,
      fun _ => le_refl _, by simp⟩
  | cons p rest ih =>
    intro m k hk hmd
    have hp1 : p.1 ≠ "" := hmd p (List.mem_cons_self _ _)
    have hrest : ∀ q ∈ rest, q.1 ≠ "" :=
      fun q hq => hmd q (List.mem_cons_of_mem _ hq)
    rw [List.foldl_cons]
    by_cases h1 : p.2.priority < m
    · have hstep : scanStep ck (m, some k) p = (p.2.priority, some p.1) := by
        simp [scanStep, h1]
      rw [hstep]
      obtain ⟨m', k', hfold, hsrc, hle, hbound, htie0, htie⟩ :=
        ih p.2.priority p.1 hp1 hrest
      refine ⟨m', k', hfold, ?_, ?_, ?_, ?_, ?_⟩
      · rcases hsrc with ⟨rfl, rfl⟩ | ⟨e, he, hpe⟩
        · exact Or.inr ⟨p.2, List.mem_cons_self _ _, rfl⟩
        · exact Or.inr ⟨e, List.mem_cons_of_mem _ he, hpe⟩
      · omega
      · intro q hq
        rcases List.mem_cons.mp hq with rfl | hq'
        · exact hle
        · exact hbound q hq'
      · intro hm'
        omega
      · intro q hq hqe
        rcases List.mem_cons.mp hq with rfl | hq'
        · exact htie0 hqe.symm
        · exact htie q hq' hqe
    · by_cases h2 : p.2.priority = m
      · by_cases h3 : listIndex p.1 ck < listIndex k ck
        · have hstep : scanStep ck (m, some k) p = (m, some p.1) := by
            simp [scanStep, h1, h2, hk, h3]
          rw [hstep]
          obtain ⟨m', k', hfold, hsrc, hle, hbound, htie0, htie⟩ :=
            ih m p.1 hp1 hrest
          refine ⟨m', k', hfold, ?_, hle, ?_, ?_, ?_⟩
          · rcases hsrc with ⟨rfl, rfl⟩ | ⟨e, he, hpe⟩
            · exact Or.inr ⟨p.2, List.mem_cons_self _ _, h2⟩
            · exact Or.inr ⟨e, List.mem_cons_of_mem _ he, hpe⟩
          · intro q hq
            rcases List.mem_cons.mp hq with rfl | hq'
            · omega
            · exact hbound q hq'
          · intro hm'
            exact le_of_lt (lt_of_le_of_lt (htie0 hm') h3)
          · intro q hq hqe
            rcases List.mem_cons.mp hq with rfl | hq'
            · exact htie0 (by omega)
            · exact htie q hq' hqe
        · have hstep : scanStep ck (m, some k) p = (m, some k) := by
            simp [scanStep, h1, h2, hk, h3]
          rw [hstep]
          obtain ⟨m', k', hfold, hsrc, hle, hbound, htie0, htie⟩ :=
            ih m k hk hrest
          refine ⟨m', k', hfold, ?_, hle, ?_, htie0, ?_⟩
          · rcases hsrc with h | ⟨e, he, hpe⟩
            · exact Or.inl h
            · exact Or.inr ⟨e, List.mem_cons_of_mem _ he, hpe⟩
          · intro q hq
            rcases List.mem_cons.mp hq with rfl | hq'
            · omega
            · exact hbound q hq'
          · intro q hq hqe
            rcases List.mem_cons.mp hq with rfl | hq'
            · exact le_trans (htie0 (by omega)) (le_of_not_lt h3)
            · exact htie q hq' hqe
      · have hstep : scanStep ck (m, some k) p = (m, some k) := by
          simp [scanStep, h1, h2]
        rw [hstep]
        obtain ⟨m', k', hfold, hsrc, hle, hbound, htie0, htie⟩ :=
          ih m k hk hrest
        refine ⟨m', k', hfold, ?_, hle, ?_, htie0, ?_⟩
        · rcases hsrc with h | ⟨e, he, hpe⟩
          · exact Or.inl h
          · exact Or.inr ⟨e, List.mem_cons_of_mem _ he, hpe⟩
        · intro q hq
          rcases List.mem_cons.mp hq with rfl | hq'
          · omega
          · exact hbound q hq'
        · intro q hq hqe
          rcases List.mem_cons.mp hq with rfl | hq'
          · omega
          · exact htie q hq' hqe

/-- The top-level scan (`min_priority = 11`, `evict_key = None`) on a
non-empty metadata dict of clamped priorities and non-empty keys selects
an entry of globally minimal priority, tie-broken towards the smaller
recency index (i.e. the least-recently-used end). -/
theorem evictScan_spec (ck : List String) (md : List (String × CacheEntry α))
    (hne : md ≠ []) (hkeys : ∀ p ∈ md, p.1 ≠ "")
    (hprio : ∀ p ∈ md, p.2.priority ≤ 10) :
    ∃ k' e', (k', e') ∈ md ∧ evictScan ck md = (e'.priority, some k') ∧
      (∀ p ∈ md, e'.priority ≤ p.2.priority) ∧
      (∀ p ∈ md, p.2.priority = e'.priority →
        listIndex k' ck ≤ listIndex p.1 ck) := by
  cases md with
  | nil => cases hne rfl
  | cons p rest =>
    have hp1 : p.1 ≠ "" := hkeys p (List.mem_cons_self _ _)
    have h10 : p.2.priority ≤ 10 := hprio p (List.mem_cons_self _ _)
    have hfirst : scanStep ck (11, none) p = (p.2.priority, some p.1) := by
      have : p.2.priority < 11 := by omega
      simp [scanStep, this]
    rw [evictScan, List.foldl_cons, hfirst]
    obtain ⟨m', k', hfold, hsrc, hle, hbound, htie0, htie⟩ :=
      scanGo_spec ck rest p.2.priority p.1 hp1
        (fun q hq => hkeys q (List.mem_cons_of_mem _ hq))
    rcases hsrc with ⟨rfl, rfl⟩ | ⟨e, he, hpe⟩
    · refine ⟨p.1, p.2, List.mem_cons_self _ _, hfold, ?_, ?_⟩
      · intro q hq
        rcases List.mem_cons.mp hq with rfl | hq'
        · exact le_refl _
        · exact hbound q hq'
      · intro q hq hqe
        rcases List.mem_cons.mp hq with rfl | hq'
        · exact le_refl _
        · exact htie q hq' hqe
    · subst hpe
      refine ⟨k', e, List.mem_cons_of_mem _ he, hfold, ?_, ?_⟩
      · intro q hq
        rcases List.mem_cons.mp hq with rfl | hq'
        · exact hle
        · exact hbound q hq'
      · intro q hq hqe
        rcases List.mem_cons.mp hq with rfl | hq'
        · exact htie0 hqe.symm
        · exact htie q hq' hqe

/-! ### Structural lemmas for the cache operations -/

theorem clampPriority_range (p : Int) :
    1 ≤ clampPriority p ∧ clampPriority p ≤ 10 := by
  unfold clampPriority
  rcases le_total p 10 with h | h
  · rw [min_eq_right h]
    rcases le_total p 1 with h1 | h1
    · rw [max_eq_left h1]
      exact ⟨le_refl 1, by omega⟩
    · rw [max_eq_right h1]
      constructor <;> omega
  · rw [min_eq_left h, max_eq_right (by omega : (1 : Int) ≤ 10)]
    constructor <;> omega

theorem storeEntry_cache (c : SmartCache α) (now : Nat) (key : String)
    (value : α) (ttlv : Nat) (p : Int) :
    (c.storeEntry now key value ttlv p).cache =
      dictDel key c.cache ++ [(key, value)] := by
  show moveToEnd key (dictSet key value c.cache) = _
  rw [moveToEnd_eq_of_get (dictGet_set_self key value c.cache),
    dictDel_dictSet_self]

theorem put_eq_of_skip (c : SmartCache α) (now : Nat) (key : String)
    (value : α) (ttl : Option Nat) (p : Int)
    (h : ¬ (¬ dictMem key c.cache ∧ c.cache.length ≥ c.max_size)) :
    c.put now key value ttl p =
      (c.storeEntry now key value (resolveTtl c ttl) p, true) := by
  simp only [SmartCache.put, if_neg h]

theorem put_eq_of_evict (c : SmartCache α) (now : Nat) (key : String)
    (value : α) (ttl : Option Nat) (p : Int)
    (h : ¬ dictMem key c.cache ∧ c.cache.length ≥ c.max_size) :
    c.put now key value ttl p =
      ((c.evictLowestPriority).storeEntry now key value (resolveTtl c ttl) p,
        true) := by
  simp only [SmartCache.put, if_pos h]

theorem evict_structure (c : SmartCache α) :
    ((c.evictLowestPriority).cache = c.cache ∧
     (c.evictLowestPriority).metadata = c.metadata) ∨
    ∃ vk, (c.evictLowestPriority).cache = dictDel vk c.cache ∧
      (c.evictLowestPriority).metadata = dictDel vk c.metadata := by
  unfold SmartCache.evictLowestPriority
  split
  · exact Or.inl ⟨rfl, rfl⟩
  · split
    · rename_i ek heq
      split
      · unfold SmartCache.removeEntry
        split
        · exact Or.inr ⟨ek, rfl, rfl⟩
        · exact Or.inl ⟨rfl, rfl⟩
      · exact Or.inl ⟨rfl, rfl⟩
    · exact Or.inl ⟨rfl, rfl⟩

theorem evict_fields (c : SmartCache α) :
    (c.evictLowestPriority).max_size = c.max_size ∧
    (c.evictLowestPriority).default_ttl = c.default_ttl ∧
    (c.evictLowestPriority).stats.insertions = c.stats.insertions ∧
    (c.evictLowestPriority).stats.hits = c.stats.hits ∧
    (c.evictLowestPriority).stats.misses = c.stats.misses := by
  unfold SmartCache.evictLowestPriority SmartCache.removeEntry
  split
  · exact ⟨rfl, rfl, rfl, rfl, rfl⟩
  · split
    · split
      · split
        · exact ⟨rfl, rfl, rfl, rfl, rfl⟩
        · exact ⟨rfl, rfl, rfl, rfl, rfl⟩
      · exact ⟨rfl, rfl, rfl, rfl, rfl⟩
    · exact ⟨rfl, rfl, rfl, rfl, rfl⟩

/-- Full behaviour of `_evict_lowest_priority` on a well-formed state whose
keys are all non-empty: exactly the scan's victim is removed from both
structures, `evictions` rises by one, and the `"eviction"` event fires. -/
theorem evict_spec (c : SmartCache α) (hwf : WF c) (hne : KeysNE c)
    (hcne : c.cache ≠ []) :
    ∃ vk e, (vk, e) ∈ c.metadata ∧ vk ≠ "" ∧ dictMem vk c.cache = true ∧
      (∀ p ∈ c.metadata, e.priority ≤ p.2.priority) ∧
      (∀ p ∈ c.metadata, p.2.priority = e.priority →
        listIndex vk (keysOf c.cache) ≤ listIndex p.1 (keysOf c.cache)) ∧
      c.evictLowestPriority = { c with
        cache := dictDel vk c.cache,
        metadata := dictDel vk c.metadata,
        stats := { c.stats with evictions := c.stats.evictions + 1 },
        events := c.events ++ [("eviction", vk, none)] } := by
  obtain ⟨hnodc, hnodm, hcm, hmc, hpr⟩ := hwf
  have hkeysmd : ∀ p ∈ c.metadata, p.1 ≠ "" := by
    intro p hp
    have h1 : dictMem p.1 c.cache = true := hmc p.1 (mem_keysOf_of_pair hp)
    obtain ⟨v, hv⟩ := exists_pair_of_mem_keysOf (mem_keysOf_iff.mpr h1)
    exact hne (p.1, v) hv
  have hmdne : c.metadata ≠ [] := by
    cases hc : c.cache with
    | nil => exact absurd hc hcne
    | cons q rest =>
      intro hmd
      have hq : dictMem q.1 c.metadata = true := by
        refine hcm q.1 ?_
        rw [hc]
        exact mem_keysOf_of_pair (List.mem_cons_self _ _)
      rw [hmd] at hq
      simp [dictMem, dictGet] at hq
  have hprio10 : ∀ p ∈ c.metadata, p.2.priority ≤ 10 :=
    fun p hp => (hpr p hp).2
  obtain ⟨vk, e, hmem, hscan, hbound, htie⟩ :=
    evictScan_spec (keysOf c.cache) c.metadata hmdne hkeysmd hprio10
  have hvk : vk ≠ "" := hkeysmd (vk, e) hmem
  have hmemc : dictMem vk c.cache = true := hmc vk (mem_keysOf_of_pair hmem)
  refine ⟨vk, e, hmem, hvk, hmemc, hbound, htie, ?_⟩
  have hcE : c.cache.isEmpty = false := by
    cases hcc : c.cache with
    | nil => exact absurd hcc hcne
    | cons a l => rfl
  have h2 : (evictScan (keysOf c.cache) c.metadata).2 = some vk := by
    rw [hscan]
  unfold SmartCache.evictLowestPriority
  rw [hcE]
  simp only [Bool.false_eq_true, if_false, h2, if_pos hvk]
  unfold SmartCache.removeEntry
  rw [hmemc]
  simp

/-! ### Branch lemmas for `get`, and frame lemmas -/

theorem get_eq_miss (c : SmartCache α) (now : Nat) (key : String)
    (h : dictMem key c.cache = false) :
    c.get now key = some ({ c with
      stats := { c.stats with misses := c.stats.misses + 1 },
      events := c.events ++ [("miss", key, none)] }, none) := by
  unfold SmartCache.get
  rw [h]
  simp

theorem get_eq_none (c : SmartCache α) (now : Nat) (key : String)
    (hmem : dictMem key c.cache = true)
    (hmd : dictGet key c.metadata = none) :
    c.get now key = none := by
  unfold SmartCache.get
  rw [hmem, hmd]
  simp

theorem get_eq_expired (c : SmartCache α) (now : Nat) (key : String)
    (e : CacheEntry α) (hmem : dictMem key c.cache = true)
    (hget : dictGet key c.metadata = some e) (hexp : now > e.ttl) :
    c.get now key = some ({ c.removeEntry key with
      stats := { (c.removeEntry key).stats with
        misses := (c.removeEntry key).stats.misses + 1 },
      events := (c.removeEntry key).events ++ [("miss", key, none)] },
      none) := by
  unfold SmartCache.get
  rw [hmem, hget]
  simp [hexp]

theorem get_eq_hit (c : SmartCache α) (now : Nat) (key : String)
    (e : CacheEntry α) (hmem : dictMem key c.cache = true)
    (hget : dictGet key c.metadata = some e) (hexp : ¬ now > e.ttl) :
    c.get now key = some ({ c with
      metadata := dictSet key
        { e with last_accessed := now, access_count := e.access_count + 1 }
        c.metadata,
      cache := moveToEnd key c.cache,
      stats := { c.stats with hits := c.stats.hits + 1 },
      events := c.events ++ [("hit", key, some e.value)] },
      some e.value) := by
  unfold SmartCache.get
  rw [hmem, hget]
  simp [hexp]

theorem removeEntry_fields (c : SmartCache α) (k : String) :
    (c.removeEntry k).max_size = c.max_size ∧
    (c.removeEntry k).default_ttl = c.default_ttl ∧
    (c.removeEntry k).stats = c.stats ∧
    (c.removeEntry k).events = c.events := by
  unfold SmartCache.removeEntry
  split
  · exact ⟨rfl, rfl, rfl, rfl⟩
  · exact ⟨rfl, rfl, rfl, rfl⟩

theorem removeEntry_cache_of_mem (c : SmartCache α) (k : String)
    (h : dictMem k c.cache = true) :
    (c.removeEntry k).cache = dictDel k c.cache ∧
    (c.removeEntry k).metadata = dictDel k c.metadata := by
  unfold SmartCache.removeEntry
  rw [h]
  exact ⟨rfl, rfl⟩

/-! ### Preservation of well-formedness -/

theorem wf_congr {c c2 : SmartCache α} (hc : c2.cache = c.cache)
    (hm : c2.metadata = c.metadata) (hwf : WF c) : WF c2 := by
  unfold WF at hwf ⊢
  rw [hc, hm]
  exact hwf

theorem wf_del_pair {c : SmartCache α} (vk : String) (hwf : WF c)
    {c2 : SmartCache α} (hc : c2.cache = dictDel vk c.cache)
    (hm : c2.metadata = dictDel vk c.metadata) : WF c2 := by
  obtain ⟨hnodc, hnodm, hcm, hmc, hpr⟩ := hwf
  unfold WF
  rw [hc, hm]
  refine ⟨nodup_keysOf_dictDel vk hnodc, nodup_keysOf_dictDel vk hnodm,
    ?_, ?_, ?_⟩
  · intro k' hk'
    rw [mem_keysOf_iff] at hk'
    by_cases he : k' = vk
    · subst he
      rw [dictMem_del_self] at hk'
      cases hk'
    · rw [dictMem_del_ne _ he] at hk'
      rw [dictMem_del_ne _ he]
      exact hcm k' (mem_keysOf_iff.mpr hk')
  · intro k' hk'
    rw [mem_keysOf_iff] at hk'
    by_cases he : k' = vk
    · subst he
      rw [dictMem_del_self] at hk'
      cases hk'
    · rw [dictMem_del_ne _ he] at hk'
      rw [dictMem_del_ne _ he]
      exact hmc k' (mem_keysOf_iff.mpr hk')
  · intro p hp
    exact hpr p (mem_dictDel_sub hp)

theorem wf_removeEntry (c : SmartCache α) (k : String) (hwf : WF c) :
    WF (c.removeEntry k) := by
  unfold SmartCache.removeEntry
  split
  · exact wf_del_pair k hwf rfl rfl
  · exact hwf

theorem wf_evict (c : SmartCache α) (hwf : WF c) :
    WF c.evictLowestPriority := by
  rcases evict_structure c with ⟨h1, h2⟩ | ⟨vk, h1, h2⟩
  · exact wf_congr h1 h2 hwf
  · exact wf_del_pair vk hwf h1 h2

theorem wf_storeEntry (c : SmartCache α) (now : Nat) (key : String)
    (value : α) (ttlv : Nat) (pr : Int) (hwf : WF c) :
    WF (c.storeEntry now key value ttlv pr) := by
  obtain ⟨hnodc, hnodm, hcm, hmc, hpr⟩ := hwf
  refine ⟨?_, ?_, ?_, ?_, ?_⟩
  · show (keysOf (moveToEnd key (dictSet key value c.cache))).Nodup
    exact nodup_keysOf_moveToEnd key (nodup_keysOf_dictSet key value hnodc)
  · exact nodup_keysOf_dictSet key _ hnodm
  · intro k' hk'
    rw [mem_keysOf_iff] at hk'
    show dictMem k' (dictSet key _ c.metadata) = true
    rw [show ((c.storeEntry now key value ttlv pr).cache =
        moveToEnd key (dictSet key value c.cache)) from rfl] at hk'
    rw [dictMem_moveToEnd] at hk'
    by_cases he : k' = key
    · subst he
      exact dictMem_set_self _ _ _
    · rw [dictMem_set_ne _ _ he] at hk'
      rw [dictMem_set_ne _ _ he]
      exact hcm k' (mem_keysOf_iff.mpr hk')
  · intro k' hk'
    rw [mem_keysOf_iff] at hk'
    show dictMem k' (moveToEnd key (dictSet key value c.cache)) = true
    rw [dictMem_moveToEnd]
    rw [show ((c.storeEntry now key value ttlv pr).metadata =
        dictSet key ⟨value, now + ttlv, clampPriority pr, now, now, 0⟩
          c.metadata) from rfl] at hk'
    by_cases he : k' = key
    · subst he
      exact dictMem_set_self _ _ _
    · rw [dictMem_set_ne _ _ he] at hk'
      rw [dictMem_set_ne _ _ he]
      exact hmc k' (mem_keysOf_iff.mpr hk')
  · intro p hp
    rcases mem_dictSet_elem hp with h | h
    · rw [h]
      exact clampPriority_range pr
    · exact hpr p h

theorem wf_hit_update (c : SmartCache α) (key : String) (e e' : CacheEntry α)
    (hget : dictGet key c.metadata = some e) (hmem : dictMem key c.cache = true)
    (hprio : e'.priority = e.priority) (hwf : WF c) {c2 : SmartCache α}
    (hc : c2.cache = moveToEnd key c.cache)
    (hm : c2.metadata = dictSet key e' c.metadata) : WF c2 := by
  obtain ⟨hnodc, hnodm, hcm, hmc, hpr⟩ := hwf
  unfold WF
  rw [hc, hm]
  refine ⟨nodup_keysOf_moveToEnd key hnodc, nodup_keysOf_dictSet key e' hnodm,
    ?_, ?_, ?_⟩
  · intro k' hk'
    rw [mem_keysOf_iff, dictMem_moveToEnd] at hk'
    by_cases he : k' = key
    · subst he
      exact dictMem_set_self _ _ _
    · rw [dictMem_set_ne _ _ he]
      exact hcm k' (mem_keysOf_iff.mpr hk')
  · intro k' hk'
    rw [mem_keysOf_iff] at hk'
    rw [dictMem_moveToEnd]
    by_cases he : k' = key
    · subst he
      exact hmem
    · rw [dictMem_set_ne _ _ he] at hk'
      exact hmc k' (mem_keysOf_iff.mpr hk')
  · intro p hp
    rcases mem_dictSet_elem hp with h | h
    · rw [h]
      show 1 ≤ e'.priority ∧ e'.priority ≤ 10
      rw [hprio]
      exact hpr (key, e) (dictGet_mem_pair hget)
    · exact hpr p h

theorem wf_get_state (c : SmartCache α) (now : Nat) (k : String)
    (hwf : WF c) :
    WF (match c.get now k with | some r => r.1 | none => c) := by
  by_cases hmem : dictMem k c.cache = true
  · cases hget : dictGet k c.metadata with
    | none =>
      rw [get_eq_none c now k hmem hget]
      exact hwf
    | some e =>
      by_cases hexp : now > e.ttl
      · rw [get_eq_expired c now k e hmem hget hexp]
        exact wf_congr rfl rfl (wf_removeEntry c k hwf)
      · rw [get_eq_hit c now k e hmem hget hexp]
        exact wf_hit_update c k e
          { e with last_accessed := now, access_count := e.access_count + 1 }
          hget hmem rfl hwf rfl rfl
  · rw [get_eq_miss c now k (by simpa using hmem)]
    exact wf_congr rfl rfl hwf

theorem wf_fold_remove (ks : List String) :
    ∀ (c : SmartCache α), WF c →
      WF (ks.foldl (fun a k => a.removeEntry k) c) := by
  induction ks with
  | nil => intro c hwf; exact hwf
  | cons k rest ih =>
    intro c hwf
    rw [List.foldl_cons]
    exact ih _ (wf_removeEntry c k hwf)

/-- Every public operation (and the sweeper tick) preserves
well-formedness, for arbitrary keys. -/
theorem wf_step (c : SmartCache α) (op : Op α) (hwf : WF c) :
    WF (step c op) := by
  cases op with
  | put now k v ttl p =>
    show WF (c.put now k v ttl p).1
    by_cases hcond : ¬ dictMem k c.cache ∧ c.cache.length ≥ c.max_size
    · rw [put_eq_of_evict c now k v ttl p hcond]
      exact wf_storeEntry _ now k v _ p (wf_evict c hwf)
    · rw [put_eq_of_skip c now k v ttl p hcond]
      exact wf_storeEntry _ now k v _ p hwf
  | get now k => exact wf_get_state c now k hwf
  | del k =>
    show WF (c.delete k).1
    unfold SmartCache.delete
    split
    · exact wf_removeEntry c k hwf
    · exact hwf
  | clear =>
    show WF c.clear
    refine ⟨List.nodup_nil, List.nodup_nil, ?_, ?_, ?_⟩ <;>
      simp [SmartCache.clear, keysOf]
  | sweep now => exact wf_fold_remove _ c hwf
  | containsKey now k =>
    show WF (match c.containsKey now k with | some r => r.1 | none => c)
    unfold SmartCache.containsKey
    have := wf_get_state c now k hwf
    cases hg : c.get now k with
    | none =>
      rw [hg] at this
      simpa [hg] using this
    | some r =>
      rw [hg] at this
      simpa [hg] using this

/-! ### Preservation of non-empty keys and of the size bound -/

theorem keysNE_subset {c c2 : SmartCache α}
    (h : ∀ p ∈ c2.cache, p ∈ c.cache) (hne : KeysNE c) : KeysNE c2 :=
  fun p hp => hne p (h p hp)

theorem keysNE_removeEntry (c : SmartCache α) (k : String) (hne : KeysNE c) :
    KeysNE (c.removeEntry k) := by
  refine keysNE_subset ?_ hne
  intro p hp
  unfold SmartCache.removeEntry at hp
  split at hp
  · exact mem_dictDel_sub hp
  · exact hp

theorem keysNE_evict (c : SmartCache α) (hne : KeysNE c) :
    KeysNE c.evictLowestPriority := by
  rcases evict_structure c with ⟨h1, _⟩ | ⟨vk, h1, _⟩
  · refine keysNE_subset ?_ hne
    intro p hp
    rw [h1] at hp
    exact hp
  · refine keysNE_subset ?_ hne
    intro p hp
    rw [h1] at hp
    exact mem_dictDel_sub hp

theorem keysNE_storeEntry (c : SmartCache α) (now : Nat) (key : String)
    (value : α) (ttlv : Nat) (pr : Int) (hkey : key ≠ "") (hne : KeysNE c) :
    KeysNE (c.storeEntry now key value ttlv pr) := by
  intro p hp
  have hp' : p ∈ moveToEnd key (dictSet key value c.cache) := hp
  rcases mem_dictSet_elem (mem_moveToEnd_sub hp') with h | h
  · rw [h]
    exact hkey
  · exact hne p h

theorem keysNE_fold_remove (ks : List String) :
    ∀ (c : SmartCache α), KeysNE c →
      KeysNE (ks.foldl (fun a k => a.removeEntry k) c) := by
  induction ks with
  | nil => intro c h; exact h
  | cons k rest ih =>
    intro c h
    rw [List.foldl_cons]
    exact ih _ (keysNE_removeEntry c k h)

theorem keysNE_get_state (c : SmartCache α) (now : Nat) (k : String)
    (hne : KeysNE c) :
    KeysNE (match c.get now k with | some r => r.1 | none => c) := by
  by_cases hmem : dictMem k c.cache = true
  · cases hget : dictGet k c.metadata with
    | none =>
      rw [get_eq_none c now k hmem hget]
      exact hne
    | some e =>
      by_cases hexp : now > e.ttl
      · rw [get_eq_expired c now k e hmem hget hexp]
        exact keysNE_subset (fun p hp => hp) (keysNE_removeEntry c k hne)
      · rw [get_eq_hit c now k e hmem hget hexp]
        exact keysNE_subset (fun p hp => mem_moveToEnd_sub hp) hne
  · rw [get_eq_miss c now k (by simpa using hmem)]
    exact hne

theorem keysNE_step (c : SmartCache α) (op : Op α) (hne : KeysNE c)
    (hop : opKeyOk op = true) : KeysNE (step c op) := by
  cases op with
  | put now k v ttl p =>
    have hkey : k ≠ "" := by simpa [opKeyOk] using hop
    show KeysNE (c.put now k v ttl p).1
    by_cases hcond : ¬ dictMem k c.cache ∧ c.cache.length ≥ c.max_size
    · rw [put_eq_of_evict c now k v ttl p hcond]
      exact keysNE_storeEntry _ now k v _ p hkey (keysNE_evict c hne)
    · rw [put_eq_of_skip c now k v ttl p hcond]
      exact keysNE_storeEntry _ now k v _ p hkey hne
  | get now k => exact keysNE_get_state c now k hne
  | del k =>
    show KeysNE (c.delete k).1
    unfold SmartCache.delete
    split
    · exact keysNE_removeEntry c k hne
    · exact hne
  | clear =>
    intro p hp
    cases hp
  | sweep now => exact keysNE_fold_remove _ c hne
  | containsKey now k =>
    show KeysNE (match c.containsKey now k with | some r => r.1 | none => c)
    unfold SmartCache.containsKey
    have hg := keysNE_get_state c now k hne
    cases hgg : c.get now k with
    | none =>
      rw [hgg] at hg
      simpa [hgg] using hg
    | some r =>
      rw [hgg] at hg
      simpa [hgg] using hg

/-! ### Size bookkeeping -/

theorem dictMem_del_false {β : Type} {k j : String} {d : List (String × β)}
    (h : dictMem k d = false) : dictMem k (dictDel j d) = false := by
  by_cases he : k = j
  · subst he
    exact dictMem_del_self k d
  · rw [dictMem_del_ne _ he]
    exact h

theorem length_removeEntry_le (c : SmartCache α) (k : String) :
    (c.removeEntry k).cache.length ≤ c.cache.length := by
  unfold SmartCache.removeEntry
  split
  · exact (dictDel_sublist k c.cache).length_le
  · exact le_refl _

theorem evict_cache_length (c : SmartCache α) (hwf : WF c) (hne : KeysNE c)
    (hcne : c.cache ≠ []) :
    (c.evictLowestPriority).cache.length + 1 = c.cache.length := by
  obtain ⟨vk, e, _, _, hmemc, _, _, heq⟩ := evict_spec c hwf hne hcne
  rw [heq]
  show (dictDel vk c.cache).length + 1 = c.cache.length
  exact length_dictDel_of_mem hwf.1 hmemc

theorem evict_not_mem (c : SmartCache α) (k : String)
    (h : dictMem k c.cache = false) :
    dictMem k (c.evictLowestPriority).cache = false := by
  rcases evict_structure c with ⟨h1, _⟩ | ⟨vk, h1, _⟩
  · rw [h1]; exact h
  · rw [h1]; exact dictMem_del_false h

theorem max_size_get_state (c : SmartCache α) (now : Nat) (k : String) :
    (match c.get now k with | some r => r.1 | none => c).max_size =
      c.max_size := by
  by_cases hmem : dictMem k c.cache = true
  · cases hget : dictGet k c.metadata with
    | none => rw [get_eq_none c now k hmem hget]
    | some e =>
      by_cases hexp : now > e.ttl
      · rw [get_eq_expired c now k e hmem hget hexp]
        exact (removeEntry_fields c k).1
      · rw [get_eq_hit c now k e hmem hget hexp]
  · rw [get_eq_miss c now k (by simpa using hmem)]

theorem step_max_size (c : SmartCache α) (op : Op α) :
    (step c op).max_size = c.max_size := by
  cases op with
  | put now k v ttl p =>
    show (c.put now k v ttl p).1.max_size = c.max_size
    by_cases hcond : ¬ dictMem k c.cache ∧ c.cache.length ≥ c.max_size
    · rw [put_eq_of_evict c now k v ttl p hcond]
      exact (evict_fields c).1
    · rw [put_eq_of_skip c now k v ttl p hcond]
      rfl
  | get now k => exact max_size_get_state c now k
  | del k =>
    show (c.delete k).1.max_size = c.max_size
    unfold SmartCache.delete
    split
    · exact (removeEntry_fields c k).1
    · rfl
  | clear => rfl
  | sweep now =>
    show ((keysOf (c.metadata.filter (fun p => now > p.2.ttl))).foldl
      (fun acc k => acc.removeEntry k) c).max_size = c.max_size
    generalize keysOf (c.metadata.filter (fun p => now > p.2.ttl)) = ks
    induction ks generalizing c with
    | nil => rfl
    | cons k rest ih =>
      rw [List.foldl_cons]
      rw [ih (c.removeEntry k)]
      exact (removeEntry_fields c k).1
  | containsKey now k =>
    show (match c.containsKey now k with | some r => r.1 | none => c).max_size =
      c.max_size
    unfold SmartCache.containsKey
    have hg := max_size_get_state c now k
    cases hgg : c.get now k with
    | none =>
      simp only [hgg, Option.map_none']
    | some r =>
      rw [hgg] at hg
      simp only [hgg, Option.map_some']
      exact hg

theorem size_get_state (c : SmartCache α) (now : Nat) (k : String)
    (hwf : WF c) :
    (match c.get now k with | some r => r.1 | none => c).cache.length ≤
      c.cache.length := by
  by_cases hmem : dictMem k c.cache = true
  · cases hget : dictGet k c.metadata with
    | none =>
      rw [get_eq_none c now k hmem hget]
    | some e =>
      by_cases hexp : now > e.ttl
      · rw [get_eq_expired c now k e hmem hget hexp]
        exact length_removeEntry_le c k
      · rw [get_eq_hit c now k e hmem hget hexp]
        show (moveToEnd k c.cache).length ≤ c.cache.length
        rw [length_moveToEnd_of_nodup k hwf.1]
  · rw [get_eq_miss c now k (by simpa using hmem)]

theorem size_fold_remove_le (ks : List String) :
    ∀ (c : SmartCache α),
      (ks.foldl (fun a k => a.removeEntry k) c).cache.length ≤
        c.cache.length := by
  induction ks with
  | nil => intro c; exact le_refl _
  | cons k rest ih =>
    intro c
    rw [List.foldl_cons]
    exact le_trans (ih (c.removeEntry k)) (length_removeEntry_le c k)

/-- One operation with a non-empty key keeps the store's size at most
`max max_size 1` (the `1` accounts for the eviction-before-insert order of
`put`, which lets a `max_size = 0` cache hold one entry). -/
theorem size_step (c : SmartCache α) (op : Op α) (hwf : WF c)
    (hne : KeysNE c) (hb : c.cache.length ≤ max c.max_size 1)
    (hop : opKeyOk op = true) :
    (step c op).cache.length ≤ max c.max_size 1 := by
  obtain ⟨M, hMdef⟩ : ∃ M, max c.max_size 1 = M := ⟨_, rfl⟩
  have hM1 : 1 ≤ M := hMdef ▸ le_max_right _ _
  have hMm : c.max_size ≤ M := hMdef ▸ le_max_left _ _
  rw [hMdef] at hb ⊢
  cases op with
  | put now k v ttl p =>
    show (c.put now k v ttl p).1.cache.length ≤ _
    by_cases hcond : ¬ dictMem k c.cache ∧ c.cache.length ≥ c.max_size
    · rw [put_eq_of_evict c now k v ttl p hcond, storeEntry_cache,
        List.length_append]
      have hkmem : dictMem k c.cache = false := by
        cases h : dictMem k c.cache with
        | false => rfl
        | true => exact absurd h hcond.1
      have hkev : dictMem k (c.evictLowestPriority).cache = false :=
        evict_not_mem c k hkmem
      rw [dictDel_of_not_mem hkev]
      cases hcc : c.cache with
      | nil =>
        have hev : c.evictLowestPriority = c := by
          unfold SmartCache.evictLowestPriority
          rw [hcc]
          rfl
        rw [hev, hcc]
        simpa using hM1
      | cons q rest =>
        have hlen := evict_cache_length c hwf hne (by rw [hcc]; simp)
        simp only [List.length_cons, List.length_nil]
        omega
    · rw [put_eq_of_skip c now k v ttl p hcond, storeEntry_cache,
        List.length_append]
      by_cases hm : dictMem k c.cache = true
      · have hdel := length_dictDel_of_mem hwf.1 hm
        simp only [List.length_cons, List.length_nil, List.length_singleton]
        omega
      · have hkmem : dictMem k c.cache = false := by
          cases h : dictMem k c.cache with
          | false => rfl
          | true => exact absurd h hm
        rw [dictDel_of_not_mem hkmem]
        have hlt : ¬ c.cache.length ≥ c.max_size := by
          intro hge
          exact hcond ⟨by simp [hkmem], hge⟩
        simp only [List.length_cons, List.length_nil, List.length_singleton]
        omega
  | get now k =>
    exact le_trans (size_get_state c now k hwf) hb
  | del k =>
    show (c.delete k).1.cache.length ≤ _
    unfold SmartCache.delete
    split
    · exact le_trans (length_removeEntry_le c k) hb
    · exact hb
  | clear =>
    show ([] : List (String × α)).length ≤ _
    simp
  | sweep now =>
    exact le_trans (size_fold_remove_le _ c) hb
  | containsKey now k =>
    show (match c.containsKey now k with | some r => r.1 | none => c).cache.length ≤ _
    unfold SmartCache.containsKey
    have hg := le_trans (size_get_state c now k hwf) hb
    cases hgg : c.get now k with
    | none =>
      rw [hgg] at hg
      simpa [hgg] using hg
    | some r =>
      rw [hgg] at hg
      simpa [hgg] using hg

/-! ### The reachable-state invariant -/

theorem run_max_size (ops : List (Op α)) :
    ∀ c : SmartCache α, (run c ops).max_size = c.max_size := by
  induction ops with
  | nil => intro c; rfl
  | cons op rest ih =>
    intro c
    show (run (step c op) rest).max_size = c.max_size
    rw [ih (step c op), step_max_size]

theorem inv_run (ops : List (Op α)) :
    ∀ c : SmartCache α, WF c → KeysNE c →
      c.cache.length ≤ max c.max_size 1 → ops.all opKeyOk = true →
      WF (run c ops) ∧ KeysNE (run c ops) ∧
        (run c ops).cache.length ≤ max (run c ops).max_size 1 := by
  induction ops with
  | nil => intro c hwf hne hb _; exact ⟨hwf, hne, hb⟩
  | cons op rest ih =>
    intro c hwf hne hb hall
    rw [List.all_cons, Bool.and_eq_true] at hall
    show WF (run (step c op) rest) ∧ _ ∧ _
    refine ih (step c op) (wf_step c op hwf) (keysNE_step c op hne hall.1)
      ?_ hall.2
    rw [step_max_size]
    exact size_step c op hwf hne hb hall.1

theorem wf_init (ms dt : Nat) : WF (SmartCache.init α ms dt) := by
  refine ⟨List.nodup_nil, List.nodup_nil, ?_, ?_, ?_⟩ <;>
    simp [SmartCache.init, keysOf]

theorem wf_run (ms dt : Nat) (ops : List (Op α)) (h : ops.all opKeyOk = true) :
    WF (run (SmartCache.init α ms dt) ops) ∧
    KeysNE (run (SmartCache.init α ms dt) ops) ∧
    (run (SmartCache.init α ms dt) ops).cache.length ≤
      max (run (SmartCache.init α ms dt) ops).max_size 1 :=
  inv_run ops _ (wf_init ms dt) (fun p hp => absurd hp (by simp [SmartCache.init]))
    (by simp [SmartCache.init]) h

theorem wf_run_any (ops : List (Op α)) :
    ∀ c : SmartCache α, WF c → WF (run c ops) := by
  induction ops with
  | nil => intro c h; exact h
  | cons op rest ih =>
    intro c h
    exact ih (step c op) (wf_step c op h)

theorem dictMem_concat_self {β : Type} (k : String) (v : β)
    (d : List (String × β)) : dictMem k (d ++ [(k, v)]) = true := by
  rw [dictMem, dictGet_append]
  cases dictGet k d with
  | none => simp [dictGet]
  | some w => simp

theorem dictMem_concat_ne {β : Type} {k' key : String} (v : β)
    (d : List (String × β)) (h : k' ≠ key) :
    dictMem k' (d ++ [(key, v)]) = dictMem k' d := by
  have h' : ¬ key = k' := fun hh => h hh.symm
  rw [dictMem, dictGet_append, dictMem]
  cases hg : dictGet k' d with
  | none => simp [hg, dictGet, h']
  | some w => simp [hg]

/-! ### Claim C1 -/

/-- C1 counterexample: the claimed invariant `size() <= max_size` fails on
the code.  A `max_size = 0` cache holds the item just `put` (eviction runs
before insertion and cannot remove the incoming entry), and with an
empty-string key `if evict_key:` is falsy, the eviction silently does
nothing, and a `max_size = 1` cache grows to two entries. -/
theorem size_exceeds_capacity_cex :
    ¬ ((run (SmartCache.init Nat 0 100) [Op.put 0 "a" 5 none 1]).cache.length ≤
        (run (SmartCache.init Nat 0 100) [Op.put 0 "a" 5 none 1]).max_size) ∧
    dictMem "a" (run (SmartCache.init Nat 0 100)
      [Op.put 0 "a" 5 none 1]).cache = true ∧
    ¬ ((run (SmartCache.init Nat 1 100)
          [Op.put 0 "" 5 none 1, Op.put 1 "a" 6 none 1]).cache.length ≤
        (run (SmartCache.init Nat 1 100)
          [Op.put 0 "" 5 none 1, Op.put 1 "a" 6 none 1]).max_size) := by
  decide

/-- C1 (amended): along any trace of operations whose `put` keys are
non-empty strings, the number of live entries stays at most
`max max_size 1`; in particular, for `max_size ≥ 1` the spec bound
`size() ≤ max_size` does hold.  (A `max_size = 0` cache retains the last
inserted item, and empty-string keys defeat eviction entirely, so the
bound of the original claim is off exactly in those cases.) -/
theorem size_le_max_capacity_one (ms dt : Nat) (ops : List (Op α))
    (h : ops.all opKeyOk = true) :
    (run (SmartCache.init α ms dt) ops).cache.length ≤ max ms 1 ∧
    (1 ≤ ms → (run (SmartCache.init α ms dt) ops).cache.length ≤ ms) := by
  have hinv := (wf_run ms dt ops h).2.2
  rw [run_max_size ops] at hinv
  have hms : (SmartCache.init α ms dt).max_size = ms := rfl
  rw [hms] at hinv
  refine ⟨hinv, fun h1 => ?_⟩
  rwa [max_eq_left h1] at hinv

/-- C1 witness: the amended bound at a concrete two-put trace. -/
theorem size_le_max_capacity_one_witness :
    ([Op.put 0 "a" (5 : Nat) none 1, Op.put 1 "b" 6 none 1].all opKeyOk
      = true) ∧
    (run (SmartCache.init Nat 1 100)
      [Op.put 0 "a" 5 none 1, Op.put 1 "b" 6 none 1]).cache.length ≤
        max 1 1 :=
  ⟨by decide, (size_le_max_capacity_one 1 100 _ (by decide)).1⟩

/-! ### Claim C6 -/

/-- C6: after any trace of operations (no restriction on keys), the key
set of the metadata table equals the key set of the ordering index. -/
theorem metadata_cache_keys_agree (ms dt : Nat) (ops : List (Op α))
    (k : String) :
    dictMem k (run (SmartCache.init α ms dt) ops).cache =
    dictMem k (run (SmartCache.init α ms dt) ops).metadata := by
  obtain ⟨_, _, hcm, hmc, _⟩ := wf_run_any ops _ (wf_init ms dt)
  cases h1 : dictMem k (run (SmartCache.init α ms dt) ops).cache with
  | true => exact (hcm k (mem_keysOf_iff.mpr h1)).symm
  | false =>
    cases h2 : dictMem k (run (SmartCache.init α ms dt) ops).metadata with
    | true =>
      rw [hmc k (mem_keysOf_iff.mpr h2)] at h1
      cases h1
    | false => rfl

/-! ### Claim C3 -/

/-- C3: a `get` on a present-but-expired key removes the entry, counts a
miss (not an eviction), fires a `"miss"` event and returns nothing. -/
theorem get_expired_is_lazy_miss (c : SmartCache α) (now : Nat) (k : String)
    (e : CacheEntry α) (hmem : dictMem k c.cache = true)
    (hget : dictGet k c.metadata = some e) (hexp : now > e.ttl) :
    ∃ c', c.get now k = some (c', none) ∧
      dictMem k c'.cache = false ∧
      dictMem k c'.metadata = false ∧
      c'.stats.misses = c.stats.misses + 1 ∧
      c'.stats.evictions = c.stats.evictions ∧
      c'.stats.hits = c.stats.hits ∧
      c'.stats.insertions = c.stats.insertions ∧
      c'.events = c.events ++ [("miss", k, none)] ∧
      (∀ k', k' ≠ k → dictMem k' c'.cache = dictMem k' c.cache) := by
  rw [get_eq_expired c now k e hmem hget hexp]
  obtain ⟨hcc, hmm⟩ := removeEntry_cache_of_mem c k hmem
  obtain ⟨_, _, hst, hev⟩ := removeEntry_fields c k
  refine ⟨_, rfl, ?_, ?_, ?_, ?_, ?_, ?_, ?_, ?_⟩
  · show dictMem k (c.removeEntry k).cache = false
    rw [hcc]
    exact dictMem_del_self k c.cache
  · show dictMem k (c.removeEntry k).metadata = false
    rw [hmm]
    exact dictMem_del_self k c.metadata
  · show (c.removeEntry k).stats.misses + 1 = c.stats.misses + 1
    rw [hst]
  · show (c.removeEntry k).stats.evictions = c.stats.evictions
    rw [hst]
  · show (c.removeEntry k).stats.hits = c.stats.hits
    rw [hst]
  · show (c.removeEntry k).stats.insertions = c.stats.insertions
    rw [hst]
  · show (c.removeEntry k).events ++ [("miss", k, none)] = _
    rw [hev]
  · intro k' hk'
    show dictMem k' (c.removeEntry k).cache = dictMem k' c.cache
    rw [hcc]
    exact dictMem_del_ne _ hk'

/-- C3 witness: a key stored at time 0 with TTL 10 is lazily expired by a
`get` at time 11. -/
theorem get_expired_is_lazy_miss_witness :
    dictMem "k" (run (SmartCache.init Nat 3 100)
      [Op.put 0 "k" 5 (some 10) 1]).cache = true ∧
    dictGet "k" (run (SmartCache.init Nat 3 100)
      [Op.put 0 "k" 5 (some 10) 1]).metadata =
        some ⟨5, 10, 1, 0, 0, 0⟩ ∧
    (11 : Nat) > (10 : Nat) ∧
    ∃ c', (run (SmartCache.init Nat 3 100)
        [Op.put 0 "k" 5 (some 10) 1]).get 11 "k" = some (c', none) ∧
      dictMem "k" c'.cache = false ∧
      dictMem "k" c'.metadata = false ∧
      c'.stats.misses = (run (SmartCache.init Nat 3 100)
        [Op.put 0 "k" 5 (some 10) 1]).stats.misses + 1 ∧
      c'.stats.evictions = (run (SmartCache.init Nat 3 100)
        [Op.put 0 "k" 5 (some 10) 1]).stats.evictions ∧
      c'.stats.hits = (run (SmartCache.init Nat 3 100)
        [Op.put 0 "k" 5 (some 10) 1]).stats.hits ∧
      c'.stats.insertions = (run (SmartCache.init Nat 3 100)
        [Op.put 0 "k" 5 (some 10) 1]).stats.insertions ∧
      c'.events = (run (SmartCache.init Nat 3 100)
        [Op.put 0 "k" 5 (some 10) 1]).events ++ [("miss", "k", none)] ∧
      (∀ k', k' ≠ "k" → dictMem k' c'.cache =
        dictMem k' (run (SmartCache.init Nat 3 100)
          [Op.put 0 "k" 5 (some 10) 1]).cache) := by
  refine ⟨by decide, by decide, by decide, ?_⟩
  exact get_expired_is_lazy_miss _ 11 "k" ⟨5, 10, 1, 0, 0, 0⟩
    (by decide) (by decide) (by decide)

/-! ### Claim C7 -/

/-- C7: `delete` returns whether the key was present, removes the key and
its metadata when present, leaves all four stats counters and the event
log untouched, and afterwards a `get` misses and a second `delete` returns
`false`. -/
theorem delete_semantics (c : SmartCache α) (k : String) (now : Nat) :
    (c.delete k).2 = dictMem k c.cache ∧
    (c.delete k).1.stats = c.stats ∧
    (c.delete k).1.events = c.events ∧
    dictMem k (c.delete k).1.cache = false ∧
    (dictMem k c.cache = true → dictMem k (c.delete k).1.metadata = false) ∧
    (∀ k', k' ≠ k → dictMem k' (c.delete k).1.cache = dictMem k' c.cache) ∧
    ((c.delete k).1.delete k).2 = false ∧
    (∃ c2, (c.delete k).1.get now k = some (c2, none) ∧
      c2.stats.misses = c.stats.misses + 1) := by
  by_cases hm : dictMem k c.cache = true
  · have hdel : c.delete k = (c.removeEntry k, true) := by
      unfold SmartCache.delete
      rw [hm]
      simp
    obtain ⟨hcc, hmm⟩ := removeEntry_cache_of_mem c k hm
    obtain ⟨_, _, hst, hev⟩ := removeEntry_fields c k
    rw [hdel]
    have hgone : dictMem k (c.removeEntry k).cache = false := by
      rw [hcc]
      exact dictMem_del_self k c.cache
    refine ⟨hm.symm, hst, hev, hgone, ?_, ?_, ?_, ?_⟩
    · intro _
      rw [hmm]
      exact dictMem_del_self k c.metadata
    · intro k' hk'
      rw [hcc]
      exact dictMem_del_ne _ hk'
    · unfold SmartCache.delete
      rw [hgone]
      simp
    · rw [get_eq_miss _ now k hgone]
      exact ⟨_, rfl, by rw [hst]⟩
  · have hm' : dictMem k c.cache = false := by
      cases h : dictMem k c.cache with
      | false => rfl
      | true => exact absurd h hm
    have hdel : c.delete k = (c, false) := by
      unfold SmartCache.delete
      rw [hm']
      simp
    rw [hdel]
    refine ⟨hm'.symm, rfl, rfl, hm', ?_, fun _ _ => rfl, ?_, ?_⟩
    · intro h
      exact absurd h hm
    · unfold SmartCache.delete
      rw [hm']
      simp
    · rw [get_eq_miss c now k hm']
      exact ⟨_, rfl, rfl⟩

/-- C7 witness: the delete semantics at a concrete one-entry cache. -/
theorem delete_semantics_witness :
    ((run (SmartCache.init Nat 3 100) [Op.put 0 "k" 5 none 1]).delete
      "k").2 = dictMem "k" (run (SmartCache.init Nat 3 100)
        [Op.put 0 "k" 5 none 1]).cache ∧
    dictMem "k" ((run (SmartCache.init Nat 3 100)
      [Op.put 0 "k" 5 none 1]).delete "k").1.cache = false := by
  have h := delete_semantics (run (SmartCache.init Nat 3 100)
    [Op.put 0 "k" 5 none 1]) "k" 1
  exact ⟨h.1, h.2.2.2.1⟩

/-! ### Claim C4 -/

/-- C4: a `put` on a key already present returns `true`, overwrites in
place (exactly one row for the key remains), counts one insertion, leaves
the other entries and the hit/miss/eviction counters untouched, and a
subsequent live `get` returns the new value. -/
theorem put_overwrite_semantics (c : SmartCache α) (now now2 : Nat)
    (k : String) (v2 : α) (ttl : Option Nat) (p : Int)
    (hmem : dictMem k c.cache = true) :
    (c.put now k v2 ttl p).2 = true ∧
    (keysOf (c.put now k v2 ttl p).1.cache).count k = 1 ∧
    (c.put now k v2 ttl p).1.stats.insertions = c.stats.insertions + 1 ∧
    (c.put now k v2 ttl p).1.stats.evictions = c.stats.evictions ∧
    (c.put now k v2 ttl p).1.stats.hits = c.stats.hits ∧
    (c.put now k v2 ttl p).1.stats.misses = c.stats.misses ∧
    (∀ k', k' ≠ k →
      dictMem k' (c.put now k v2 ttl p).1.cache = dictMem k' c.cache) ∧
    (¬ now2 > now + resolveTtl c ttl →
      ∃ c2, (c.put now k v2 ttl p).1.get now2 k = some (c2, some v2)) := by
  have hcond : ¬ (¬ dictMem k c.cache ∧ c.cache.length ≥ c.max_size) := by
    intro hc
    exact hc.1 hmem
  rw [put_eq_of_skip c now k v2 ttl p hcond]
  have hcache := storeEntry_cache c now k v2 (resolveTtl c ttl) p
  refine ⟨rfl, ?_, rfl, rfl, rfl, rfl, ?_, ?_⟩
  · rw [hcache, keysOf_append]
    have hnotin : k ∉ keysOf (dictDel k c.cache) := by
      rw [mem_keysOf_iff, dictMem_del_self]
      simp
    rw [List.count_append, List.count_eq_zero.mpr hnotin]
    simp [keysOf]
  · intro k' hk'
    rw [hcache, dictMem_concat_ne v2 _ hk', dictMem_del_ne _ hk']
  · intro hlive
    have hmem' : dictMem k
        (c.storeEntry now k v2 (resolveTtl c ttl) p).cache = true := by
      rw [hcache]
      exact dictMem_concat_self k v2 _
    have hget' : dictGet k
        (c.storeEntry now k v2 (resolveTtl c ttl) p).metadata =
        some ⟨v2, now + resolveTtl c ttl, clampPriority p, now, now, 0⟩ :=
      dictGet_set_self k _ c.metadata
    rw [get_eq_hit _ now2 k _ hmem' hget' hlive]
    exact ⟨_, rfl⟩

/-- C4 witness: overwriting the single entry of a concrete cache. -/
theorem put_overwrite_semantics_witness :
    ((run (SmartCache.init Nat 3 100) [Op.put 0 "k" 5 none 1]).put
        1 "k" 7 none 2).2 = true ∧
    (keysOf ((run (SmartCache.init Nat 3 100) [Op.put 0 "k" 5 none 1]).put
        1 "k" 7 none 2).1.cache).count "k" = 1 ∧
    ∃ c2, ((run (SmartCache.init Nat 3 100) [Op.put 0 "k" 5 none 1]).put
        1 "k" 7 none 2).1.get 2 "k" = some (c2, some 7) := by
  have h := put_overwrite_semantics
    (run (SmartCache.init Nat 3 100) [Op.put 0 "k" 5 none 1])
    1 2 "k" 7 none 2 (by decide)
  exact ⟨h.1, h.2.1, h.2.2.2.2.2.2.2 (by decide)⟩

/-! ### Claim C5 -/

/-- C5: `put(k, v)` followed by a `get(k)` before the expiry instant hits:
it returns `v`, sets `last_accessed` to the read time, bumps the entry's
`access_count` from 0 to 1, moves `k` to the most-recently-used end,
counts one hit, and fires a `"hit"` event carrying the value. -/
theorem put_then_get_hit (c : SmartCache α) (now1 now2 : Nat) (k : String)
    (v : α) (ttl : Option Nat) (p : Int)
    (hlive : ¬ now2 > now1 + resolveTtl c ttl) :
    ∃ c2, ((c.put now1 k v ttl p).1).get now2 k = some (c2, some v) ∧
      c2.stats.hits = (c.put now1 k v ttl p).1.stats.hits + 1 ∧
      dictGet k c2.metadata =
        some ⟨v, now1 + resolveTtl c ttl, clampPriority p, now1, now2, 1⟩ ∧
      (keysOf c2.cache).getLast? = some k ∧
      c2.events = (c.put now1 k v ttl p).1.events ++ [("hit", k, some v)] := by
  obtain ⟨base, hbase⟩ : ∃ base : SmartCache α,
      (c.put now1 k v ttl p).1 =
        base.storeEntry now1 k v (resolveTtl c ttl) p := by
    by_cases hcond : ¬ dictMem k c.cache ∧ c.cache.length ≥ c.max_size
    · exact ⟨c.evictLowestPriority, by rw [put_eq_of_evict c now1 k v ttl p hcond]⟩
    · exact ⟨c, by rw [put_eq_of_skip c now1 k v ttl p hcond]⟩
  rw [hbase]
  have hmem' : dictMem k
      (base.storeEntry now1 k v (resolveTtl c ttl) p).cache = true := by
    rw [storeEntry_cache]
    exact dictMem_concat_self k v _
  have hget' : dictGet k
      (base.storeEntry now1 k v (resolveTtl c ttl) p).metadata =
      some ⟨v, now1 + resolveTtl c ttl, clampPriority p, now1, now1, 0⟩ :=
    dictGet_set_self k _ base.metadata
  rw [get_eq_hit _ now2 k _ hmem' hget' hlive]
  refine ⟨_, rfl, rfl, ?_, ?_, rfl⟩
  · exact dictGet_set_self k _ _
  · exact getLast_keysOf_moveToEnd hmem'

/-- C5 witness: the put-then-get round trip at a concrete state. -/
theorem put_then_get_hit_witness :
    ¬ (2 : Nat) > 0 + resolveTtl (SmartCache.init Nat 3 100) (some 10) ∧
    ∃ c2, (((SmartCache.init Nat 3 100).put 0 "k" 5 (some 10) 1).1).get 2 "k"
        = some (c2, some 5) ∧
      c2.stats.hits =
        (((SmartCache.init Nat 3 100).put 0 "k" 5 (some 10) 1).1).stats.hits
          + 1 ∧
      dictGet "k" c2.metadata = some ⟨5, 0 + 10, clampPriority 1, 0, 2, 1⟩ ∧
      (keysOf c2.cache).getLast? = some "k" ∧
      c2.events = (((SmartCache.init Nat 3 100).put 0 "k" 5
        (some 10) 1).1).events ++ [("hit", "k", some 5)] :=
  ⟨by decide, put_then_get_hit (SmartCache.init Nat 3 100) 0 2 "k" 5
    (some 10) 1 (by decide)⟩

/-! ### Claim C2 -/

/-- C2 counterexample: with an empty-string key in a full cache, a `put`
of a fresh key removes nothing and the `evictions` counter stays 0 (the
scan picks `""` as victim but `if evict_key:` is falsy), refuting the
claim that exactly one entry is evicted and the counter rises by one. -/
theorem evict_empty_key_cex :
    dictMem "a" (run (SmartCache.init Nat 1 100)
      [Op.put 0 "" 5 none 1]).cache = false ∧
    (run (SmartCache.init Nat 1 100) [Op.put 0 "" 5 none 1]).cache.length ≥
      (run (SmartCache.init Nat 1 100) [Op.put 0 "" 5 none 1]).max_size ∧
    (run (SmartCache.init Nat 1 100) [Op.put 0 "" 5 none 1]).cache ≠ [] ∧
    ¬ (((run (SmartCache.init Nat 1 100)
          [Op.put 0 "" 5 none 1]).put 1 "a" 6 none 1).1.stats.evictions =
        (run (SmartCache.init Nat 1 100)
          [Op.put 0 "" 5 none 1]).stats.evictions + 1) ∧
    ((run (SmartCache.init Nat 1 100)
        [Op.put 0 "" 5 none 1]).put 1 "a" 6 none 1).1.cache.length = 2 := by
  decide

/-- C2 (amended): on a well-formed full cache all of whose keys are
non-empty strings, a `put` of a fresh key removes exactly one existing
entry — one of globally minimal priority, tie-broken towards the smaller
index in the recency order, i.e. least-recently-used among the tied —
increments `evictions` by exactly one and fires an `"eviction"` event
with the victim's key before the `"insert"` event.  (The counterexample
forces the non-empty-key restriction: an empty-string victim silently
disables the eviction.) -/
theorem put_at_capacity_evicts_lowest_priority_lru (c : SmartCache α)
    (now : Nat) (key : String) (v : α) (ttl : Option Nat) (p : Int)
    (hwf : WF c) (hne : KeysNE c) (hmem : dictMem key c.cache = false)
    (hfull : c.cache.length ≥ c.max_size) (hcne : c.cache ≠ []) :
    (c.put now key v ttl p).2 = true ∧
    ∃ vk e, (vk, e) ∈ c.metadata ∧
      (∀ q ∈ c.metadata, e.priority ≤ q.2.priority) ∧
      (∀ q ∈ c.metadata, q.2.priority = e.priority →
        listIndex vk (keysOf c.cache) ≤ listIndex q.1 (keysOf c.cache)) ∧
      vk ≠ key ∧
      (c.put now key v ttl p).1.stats.evictions = c.stats.evictions + 1 ∧
      (c.put now key v ttl p).1.events =
        c.events ++ [("eviction", vk, none), ("insert", key, some v)] ∧
      dictMem vk (c.put now key v ttl p).1.cache = false ∧
      dictMem key (c.put now key v ttl p).1.cache = true ∧
      (∀ k', k' ≠ vk → k' ≠ key →
        dictMem k' (c.put now key v ttl p).1.cache = dictMem k' c.cache) ∧
      (c.put now key v ttl p).1.cache.length = c.cache.length := by
  have hcond : ¬ dictMem key c.cache ∧ c.cache.length ≥ c.max_size :=
    ⟨by simp [hmem], hfull⟩
  rw [put_eq_of_evict c now key v ttl p hcond]
  obtain ⟨vk, e, hpair, hvk, hmemc, hbound, htie, heq⟩ :=
    evict_spec c hwf hne hcne
  have hvkne : vk ≠ key := by
    intro h
    rw [h, hmem] at hmemc
    cases hmemc
  have hkey' : dictMem key (dictDel vk c.cache) = false :=
    dictMem_del_false hmem
  have hXc : ((c.evictLowestPriority).storeEntry now key v
      (resolveTtl c ttl) p).cache = dictDel vk c.cache ++ [(key, v)] := by
    rw [storeEntry_cache, heq]
    show dictDel key (dictDel vk c.cache) ++ [(key, v)] = _
    rw [dictDel_of_not_mem hkey']
  refine ⟨rfl, vk, e, hpair, hbound, htie, hvkne, ?_, ?_, ?_, ?_, ?_, ?_⟩
  · show (c.evictLowestPriority).stats.evictions = c.stats.evictions + 1
    rw [heq]
  · show (c.evictLowestPriority).events ++ [("insert", key, some v)] = _
    rw [heq]
    show (c.events ++ [("eviction", vk, none)]) ++ [("insert", key, some v)]
      = _
    rw [List.append_assoc]
    rfl
  · rw [hXc, dictMem_concat_ne v _ hvkne]
    exact dictMem_del_self vk c.cache
  · rw [hXc]
    exact dictMem_concat_self key v _
  · intro k' hk1 hk2
    rw [hXc, dictMem_concat_ne v _ hk2]
    exact dictMem_del_ne _ hk1
  · rw [hXc, List.length_append]
    have := length_dictDel_of_mem hwf.1 hmemc
    simp only [List.length_cons, List.length_nil]
    omega

/-- C2 witness: a full two-entry cache with equal priorities evicts the
least-recently-used key `"a"` on inserting `"c"`. -/
theorem put_at_capacity_evicts_lowest_priority_lru_witness :
    WF (run (SmartCache.init Nat 2 100)
      [Op.put 0 "a" 5 none 1, Op.put 1 "b" 6 none 1]) ∧
    ((run (SmartCache.init Nat 2 100)
        [Op.put 0 "a" 5 none 1, Op.put 1 "b" 6 none 1]).put
        2 "c" 7 none 1).2 = true ∧
    ∃ vk e, (vk, e) ∈ (run (SmartCache.init Nat 2 100)
        [Op.put 0 "a" 5 none 1, Op.put 1 "b" 6 none 1]).metadata ∧
      ((run (SmartCache.init Nat 2 100)
          [Op.put 0 "a" 5 none 1, Op.put 1 "b" 6 none 1]).put
          2 "c" 7 none 1).1.stats.evictions =
        (run (SmartCache.init Nat 2 100)
          [Op.put 0 "a" 5 none 1, Op.put 1 "b" 6 none 1]).stats.evictions
          + 1 ∧
      dictMem vk ((run (SmartCache.init Nat 2 100)
          [Op.put 0 "a" 5 none 1, Op.put 1 "b" 6 none 1]).put
          2 "c" 7 none 1).1.cache = false := by
  have h := put_at_capacity_evicts_lowest_priority_lru
    (run (SmartCache.init Nat 2 100)
      [Op.put 0 "a" 5 none 1, Op.put 1 "b" 6 none 1])
    2 "c" 7 none 1 (by decide) (by decide) (by decide) (by decide)
    (by decide)
  obtain ⟨vk, e, hpair, _, _, _, hevic, _, hgone, _, _, _⟩ := h.2
  exact ⟨by decide, h.1, vk, e, hpair, hevic, hgone⟩

/-! ### Claim C9 -/

theorem removeEntry_metadata_get (c : SmartCache α) (j k : String) :
    dictGet k (c.removeEntry j).metadata = none ∨
    dictGet k (c.removeEntry j).metadata = dictGet k c.metadata := by
  unfold SmartCache.removeEntry
  split
  · by_cases hj : j = k
    · subst hj
      left
      show dictGet j (dictDel j c.metadata) = none
      exact dictGet_del_self j c.metadata
    · right
      show dictGet k (dictDel j c.metadata) = dictGet k c.metadata
      exact dictGet_del_ne _ (fun hh => hj hh.symm)
  · right
    rfl

theorem fold_remove_metadata_get (ks : List String) :
    ∀ (c : SmartCache α) (k : String),
      dictGet k (ks.foldl (fun a j => a.removeEntry j) c).metadata = none ∨
      dictGet k (ks.foldl (fun a j => a.removeEntry j) c).metadata =
        dictGet k c.metadata := by
  induction ks with
  | nil =>
    intro c k
    right
    rfl
  | cons j rest ih =>
    intro c k
    rw [List.foldl_cons]
    rcases ih (c.removeEntry j) k with h | h
    · left
      exact h
    · rcases removeEntry_metadata_get c j k with h' | h'
      · left
        rw [h, h']
      · right
        rw [h, h']

theorem get_state_metadata (c : SmartCache α) (now : Nat) (k' : String) :
    (match c.get now k' with | some r => r.1 | none => c).metadata =
      c.metadata ∨
    (match c.get now k' with | some r => r.1 | none => c).metadata =
      dictDel k' c.metadata ∨
    ∃ e0, dictGet k' c.metadata = some e0 ∧
      (match c.get now k' with | some r => r.1 | none => c).metadata =
        dictSet k'
          { e0 with last_accessed := now, access_count := e0.access_count + 1 }
          c.metadata := by
  by_cases hmem : dictMem k' c.cache = true
  · cases hget : dictGet k' c.metadata with
    | none =>
      rw [get_eq_none c now k' hmem hget]
      exact Or.inl rfl
    | some e =>
      by_cases hexp : now > e.ttl
      · rw [get_eq_expired c now k' e hmem hget hexp]
        right
        left
        show (c.removeEntry k').metadata = dictDel k' c.metadata
        exact (removeEntry_cache_of_mem c k' hmem).2
      · rw [get_eq_hit c now k' e hmem hget hexp]
        refine Or.inr (Or.inr ⟨e, rfl, ?_⟩)
        rfl
  · rw [get_eq_miss c now k' (by simpa using hmem)]
    exact Or.inl rfl

/-- C9 counterexample: `put` on an existing key replaces the entry and
resets its `access_count` from 1 back to 0, so the counter associated
with a live key is not monotone across operations. -/
theorem access_count_reset_on_overwrite_cex :
    (dictGet "k" (run (SmartCache.init Nat 3 100)
      [Op.put 0 "k" 5 none 1, Op.get 1 "k"]).metadata).map
        CacheEntry.access_count = some 1 ∧
    (dictGet "k" (run (SmartCache.init Nat 3 100)
      [Op.put 0 "k" 5 none 1, Op.get 1 "k",
        Op.put 2 "k" 6 none 1]).metadata).map
        CacheEntry.access_count = some 0 ∧
    ¬ ((1 : Nat) ≤ 0) := by
  decide

/-- C9 (amended): across any single operation, a key live before and after
has its `access_count` either reset to 0 — and then the operation is a
`put` of that very key, which replaces the entry — or incremented by
exactly 1 — and then the operation is a `get` (or the `get`-backed
membership test) of that key — or left unchanged.  In particular it never
decreases except through an overwriting `put`. -/
theorem access_count_step_trichotomy (c : SmartCache α) (op : Op α)
    (k : String) (e e' : CacheEntry α)
    (h1 : dictGet k c.metadata = some e)
    (h2 : dictGet k (step c op).metadata = some e') :
    (e'.access_count = 0 ∧ ∃ now v t p, op = Op.put now k v t p) ∨
    (e'.access_count = e.access_count + 1 ∧
      ∃ now, op = Op.get now k ∨ op = Op.containsKey now k) ∨
    e'.access_count = e.access_count := by
  cases op with
  | put now k' v t p =>
    have hsh : ∃ base : SmartCache α,
        ((c.put now k' v t p).1).metadata = dictSet k'
          ⟨v, now + resolveTtl c t, clampPriority p, now, now, 0⟩
          base.metadata ∧
        (base.metadata = c.metadata ∨
          ∃ vk, base.metadata = dictDel vk c.metadata) := by
      by_cases hcond : ¬ dictMem k' c.cache ∧ c.cache.length ≥ c.max_size
      · refine ⟨c.evictLowestPriority, ?_, ?_⟩
        · rw [put_eq_of_evict c now k' v t p hcond]
          rfl
        · rcases evict_structure c with ⟨_, hm⟩ | ⟨vk, _, hm⟩
          · exact Or.inl hm
          · exact Or.inr ⟨vk, hm⟩
      · refine ⟨c, ?_, Or.inl rfl⟩
        rw [put_eq_of_skip c now k' v t p hcond]
        rfl
    obtain ⟨base, hmd, hbase⟩ := hsh
    replace h2 : dictGet k ((c.put now k' v t p).1).metadata = some e' := h2
    rw [hmd] at h2
    by_cases hk : k' = k
    · subst hk
      rw [dictGet_set_self] at h2
      injection h2 with h2'
      left
      refine ⟨?_, now, v, t, p, rfl⟩
      rw [← h2']
    · rw [dictGet_set_ne _ _ (fun hh => hk hh.symm)] at h2
      rcases hbase with hb | ⟨vk, hb⟩
      · rw [hb, h1] at h2
        injection h2 with h2'
        right
        right
        rw [← h2']
      · rw [hb] at h2
        by_cases hvk : vk = k
        · subst hvk
          rw [dictGet_del_self] at h2
          cases h2
        · rw [dictGet_del_ne _ (fun hh => hvk hh.symm), h1] at h2
          injection h2 with h2'
          right
          right
          rw [← h2']
  | get now k' =>
    replace h2 : dictGet k
        (match c.get now k' with | some r => r.1 | none => c).metadata =
        some e' := h2
    rcases get_state_metadata c now k' with hm | hm | ⟨e0, he0, hm⟩
    · rw [hm, h1] at h2
      injection h2 with h2'
      right
      right
      rw [← h2']
    · rw [hm] at h2
      by_cases hk : k' = k
      · subst hk
        rw [dictGet_del_self] at h2
        cases h2
      · rw [dictGet_del_ne _ (fun hh => hk hh.symm), h1] at h2
        injection h2 with h2'
        right
        right
        rw [← h2']
    · rw [hm] at h2
      by_cases hk : k' = k
      · subst hk
        rw [dictGet_set_self] at h2
        rw [he0] at h1
        injection h1 with h1'
        injection h2 with h2'
        right
        left
        refine ⟨?_, now, Or.inl rfl⟩
        rw [← h2', ← h1']
      · rw [dictGet_set_ne _ _ (fun hh => hk hh.symm), h1] at h2
        injection h2 with h2'
        right
        right
        rw [← h2']
  | del k' =>
    replace h2 : dictGet k ((c.delete k').1).metadata = some e' := h2
    by_cases hm : dictMem k' c.cache = true
    · have hdel : (c.delete k').1 = c.removeEntry k' := by
        unfold SmartCache.delete
        rw [hm]
        rfl
      rw [hdel] at h2
      rcases removeEntry_metadata_get c k' k with h' | h'
      · rw [h'] at h2
        cases h2
      · rw [h', h1] at h2
        injection h2 with h2'
        right
        right
        rw [← h2']
    · have hm' : dictMem k' c.cache = false := by
        cases h : dictMem k' c.cache with
        | false => rfl
        | true => exact absurd h hm
      have hdel : (c.delete k').1 = c := by
        unfold SmartCache.delete
        rw [hm']
        rfl
      rw [hdel, h1] at h2
      injection h2 with h2'
      right
      right
      rw [← h2']
  | clear =>
    replace h2 : dictGet k ([] : List (String × CacheEntry α)) = some e' := h2
    cases h2
  | sweep now =>
    replace h2 : dictGet k
        ((keysOf (c.metadata.filter (fun p => now > p.2.ttl))).foldl
          (fun acc j => acc.removeEntry j) c).metadata = some e' := h2
    rcases fold_remove_metadata_get _ c k with h' | h'
    · rw [h'] at h2
      cases h2
    · rw [h', h1] at h2
      injection h2 with h2'
      right
      right
      rw [← h2']
  | containsKey now k' =>
    have hst : (step c (Op.containsKey now k')).metadata =
        (match c.get now k' with | some r => r.1 | none => c).metadata := by
      show (match c.containsKey now k' with
        | some r => r.1 | none => c).metadata = _
      unfold SmartCache.containsKey
      cases c.get now k' with
      | none => rfl
      | some r => rfl
    rw [hst] at h2
    rcases get_state_metadata c now k' with hm | hm | ⟨e0, he0, hm⟩
    · rw [hm, h1] at h2
      injection h2 with h2'
      right
      right
      rw [← h2']
    · rw [hm] at h2
      by_cases hk : k' = k
      · subst hk
        rw [dictGet_del_self] at h2
        cases h2
      · rw [dictGet_del_ne _ (fun hh => hk hh.symm), h1] at h2
        injection h2 with h2'
        right
        right
        rw [← h2']
    · rw [hm] at h2
      by_cases hk : k' = k
      · subst hk
        rw [dictGet_set_self] at h2
        rw [he0] at h1
        injection h1 with h1'
        injection h2 with h2'
        right
        left
        refine ⟨?_, now, Or.inr rfl⟩
        rw [← h2', ← h1']
      · rw [dictGet_set_ne _ _ (fun hh => hk hh.symm), h1] at h2
        injection h2 with h2'
        right
        right
        rw [← h2']

/-- C9 witness: a hit `get` on a live key bumps its counter by exactly
one (middle branch of the trichotomy at a concrete state). -/
theorem access_count_step_trichotomy_witness :
    ((⟨5, 100, 1, 0, 1, 1⟩ : CacheEntry Nat).access_count = 0 ∧
      ∃ now v t p, (Op.get 1 "k" : Op Nat) = Op.put now "k" v t p) ∨
    ((⟨5, 100, 1, 0, 1, 1⟩ : CacheEntry Nat).access_count =
        (⟨5, 100, 1, 0, 0, 0⟩ : CacheEntry Nat).access_count + 1 ∧
      ∃ now, (Op.get 1 "k" : Op Nat) = Op.get now "k" ∨
        (Op.get 1 "k" : Op Nat) = Op.containsKey now "k") ∨
    (⟨5, 100, 1, 0, 1, 1⟩ : CacheEntry Nat).access_count =
      (⟨5, 100, 1, 0, 0, 0⟩ : CacheEntry Nat).access_count :=
  access_count_step_trichotomy
    (run (SmartCache.init Nat 3 100) [Op.put 0 "k" 5 (some 100) 1])
    (Op.get 1 "k") "k" ⟨5, 100, 1, 0, 0, 0⟩ ⟨5, 100, 1, 0, 1, 1⟩
    (by decide) (by decide)

/-! ### Claim C10 -/

/-- C10: the membership test `__contains__` is exactly
`get(key) is not None`, side effects included: it delegates to `get`, so
it bumps `misses` and fires a `"miss"` event on an absent key, removes an
expired key (answering `false`), and on a live key bumps `hits`, fires a
`"hit"` event and moves the key to the most-recently-used end — it is
never a read-only observation. -/
theorem contains_delegates_to_get (c : SmartCache α) (now : Nat)
    (k : String) :
    c.containsKey now k =
      (c.get now k).map (fun r => (r.1, r.2.isSome)) ∧
    (dictMem k c.cache = false →
      c.containsKey now k = some ({ c with
        stats := { c.stats with misses := c.stats.misses + 1 },
        events := c.events ++ [("miss", k, none)] }, false)) ∧
    (∀ e, dictMem k c.cache = true → dictGet k c.metadata = some e →
      (now > e.ttl →
        c.containsKey now k = some ({ c.removeEntry k with
          stats := { (c.removeEntry k).stats with
            misses := (c.removeEntry k).stats.misses + 1 },
          events := (c.removeEntry k).events ++ [("miss", k, none)] },
          false) ∧
        dictMem k (c.removeEntry k).cache = false) ∧
      (¬ now > e.ttl →
        ∃ c', c.containsKey now k = some (c', true) ∧
          c'.stats.hits = c.stats.hits + 1 ∧
          c'.events = c.events ++ [("hit", k, some e.value)] ∧
          (keysOf c'.cache).getLast? = some k ∧
          dictGet k c'.metadata =
            some { e with last_accessed := now,
                          access_count := e.access_count + 1 })) := by
  refine ⟨rfl, ?_, ?_⟩
  · intro hmem
    unfold SmartCache.containsKey
    rw [get_eq_miss c now k hmem]
    rfl
  · intro e hmem hget
    constructor
    · intro hexp
      constructor
      · unfold SmartCache.containsKey
        rw [get_eq_expired c now k e hmem hget hexp]
        rfl
      · rw [(removeEntry_cache_of_mem c k hmem).1]
        exact dictMem_del_self k c.cache
    · intro hexp
      unfold SmartCache.containsKey
      rw [get_eq_hit c now k e hmem hget hexp]
      refine ⟨_, rfl, rfl, rfl, ?_, ?_⟩
      · exact getLast_keysOf_moveToEnd hmem
      · exact dictGet_set_self k _ c.metadata

/-- C10 witness: the live branch at a concrete one-entry cache. -/
theorem contains_delegates_to_get_witness :
    ∃ c', (run (SmartCache.init Nat 3 100)
        [Op.put 0 "k" 5 (some 100) 1]).containsKey 1 "k" = some (c', true) ∧
      c'.stats.hits = (run (SmartCache.init Nat 3 100)
        [Op.put 0 "k" 5 (some 100) 1]).stats.hits + 1 ∧
      c'.events = (run (SmartCache.init Nat 3 100)
        [Op.put 0 "k" 5 (some 100) 1]).events ++ [("hit", "k", some 5)] ∧
      (keysOf c'.cache).getLast? = some "k" ∧
      dictGet "k" c'.metadata =
        some { (⟨5, 100, 1, 0, 0, 0⟩ : CacheEntry Nat) with
          last_accessed := 1, access_count := 0 + 1 } :=
  ((contains_delegates_to_get (run (SmartCache.init Nat 3 100)
      [Op.put 0 "k" 5 (some 100) 1]) 1 "k").2.2
    ⟨5, 100, 1, 0, 0, 0⟩ (by decide) (by decide)).2 (by decide)

/-! ### Claim C8 -/

theorem foldl_append_singleton {γ : Type} (f : γ → Option String) :
    ∀ (l : List γ) (init : List (Option String)),
      l.foldl (fun log x => log ++ [f x]) init = init ++ l.map f := by
  intro l
  induction l with
  | nil =>
    intro init
    simp
  | cons x rest ih =>
    intro init
    rw [List.foldl_cons, ih]
    simp

theorem notifyListeners_eq_map (ls : List (Listener α)) (et k : String)
    (v : Option α) :
    notifyListeners ls et k v = ls.map (fun l => runListener l et k v) := by
  unfold notifyListeners
  rw [foldl_append_singleton (fun l => runListener l et k v) ls []]
  rfl

/-- C8: a listener that raises during event dispatch is isolated: the
exception never escapes `put`/`get` (their results and the cache state
are exactly those of the listener-free operation), every listener in the
list is still invoked — the dispatch log has one entry per listener, a
failing head listener contributes its own log line and does not stop the
tail — and the triggering mutation stays fully applied. -/
theorem listener_errors_isolated (ls : List (Listener α)) (l0 : Listener α)
    (c : SmartCache α) (now : Nat) (key : String) (v : α)
    (ttl : Option Nat) (p : Int) (et k' : String) (v' : Option α) :
    (putWithListeners ls c now key v ttl p).1 = (c.put now key v ttl p).1 ∧
    (putWithListeners ls c now key v ttl p).2.1 = true ∧
    (putWithListeners ls c now key v ttl p).2.2.length = ls.length ∧
    notifyListeners (l0 :: ls) et k' v' =
      runListener l0 et k' v' :: notifyListeners ls et k' v' ∧
    (∀ r, getWithListeners ls c now key = some r →
      c.get now key = some (r.1, r.2.1) ∧ r.2.2.length = ls.length) := by
  refine ⟨rfl, rfl, ?_, ?_, ?_⟩
  · rw [show (putWithListeners ls c now key v ttl p).2.2 =
      notifyListeners ls "insert" key (some v) from rfl]
    rw [notifyListeners_eq_map, List.length_map]
  · rw [notifyListeners_eq_map, notifyListeners_eq_map, List.map_cons]
  · intro r hr
    unfold getWithListeners at hr
    have hlog : ∀ (c' : SmartCache α) (res : Option α)
        (ev : String × String × Option α),
        c'.events = c.events ++ [ev] →
        c.get now key = some (c', res) →
        c.get now key = some (r.1, r.2.1) ∧ r.2.2.length = ls.length := by
      intro c' res ev hev hg
      rw [hg] at hr
      simp only [Option.map_some'] at hr
      injection hr with hr'
      subst hr'
      refine ⟨hg, ?_⟩
      show ((c'.events.drop c.events.length).foldl
        (fun log e => log ++ notifyListeners ls e.1 e.2.1 e.2.2) []).length
          = ls.length
      rw [hev, List.drop_left]
      show ([] ++ notifyListeners ls ev.1 ev.2.1 ev.2.2).length = ls.length
      rw [List.nil_append, notifyListeners_eq_map, List.length_map]
    by_cases hmem : dictMem key c.cache = true
    · cases hget : dictGet key c.metadata with
      | none =>
        rw [get_eq_none c now key hmem hget] at hr
        cases hr
      | some e =>
        by_cases hexp : now > e.ttl
        · refine hlog _ none ("miss", key, none) ?_
            (get_eq_expired c now key e hmem hget hexp)
          show (c.removeEntry key).events ++ [("miss", key, none)] = _
          rw [(removeEntry_fields c key).2.2.2]
        · exact hlog _ (some e.value) ("hit", key, some e.value) rfl
            (get_eq_hit c now key e hmem hget hexp)
    · have hmem' : dictMem key c.cache = false := by
        cases h : dictMem key c.cache with
        | false => rfl
        | true => exact absurd h hmem
      exact hlog _ none ("miss", key, none) rfl (get_eq_miss c now key hmem')

/-- C8 witness: with one always-raising listener registered, a concrete
`get` still returns its ordinary result and the dispatch log has exactly
one (error) entry. -/
theorem listener_errors_isolated_witness :
    ∃ r, getWithListeners [fun _ _ _ => Except.error "boom"]
        (run (SmartCache.init Nat 3 100) [Op.put 0 "k" 5 (some 100) 1])
        1 "k" = some r ∧
      (run (SmartCache.init Nat 3 100) [Op.put 0 "k" 5 (some 100) 1]).get
        1 "k" = some (r.1, r.2.1) ∧
      r.2.2.length = 1 := by
  cases hr : getWithListeners
      [(fun _ _ _ => Except.error "boom" : Listener Nat)]
      (run (SmartCache.init Nat 3 100) [Op.put 0 "k" 5 (some 100) 1])
      1 "k" with
  | none =>
    have : (getWithListeners
        [(fun _ _ _ => Except.error "boom" : Listener Nat)]
        (run (SmartCache.init Nat 3 100) [Op.put 0 "k" 5 (some 100) 1])
        1 "k").isSome = true := by decide
    rw [hr] at this
    cases this
  | some r =>
    have h := (listener_errors_isolated
      [(fun _ _ _ => Except.error "boom" : Listener Nat)]
      (fun _ _ _ => Except.ok ())
      (run (SmartCache.init Nat 3 100) [Op.put 0 "k" 5 (some 100) 1])
      1 "k" 5 none 1 "hit" "k" (some 5)).2.2.2.2 r hr
    exact ⟨r, rfl, h.1, h.2⟩
